import Mathlib

/-!
Verification development for the xparser repository (package `xrp`):
a parser for the line-oriented XResources text format, with a document
view layer, read-time macro resolution, and wildcard matching of
resource identifiers.

Strings are modelled as `List Char`.  Fallible Python code is modelled
with `Except`; distinct Python exception classes that a claim needs to
tell apart are distinct error constructors.
-/

namespace XRP

/-! ## Embedding of `xrp/match.py` -/

/-- Errors that `xrp.match` can raise: `IndexError` from `result[-1]` on an
empty component list, and the `ValueError` raised for a trailing wildcard
(the spec calls it `InvalidWildcardError`). -/
inductive MatchErr
  | indexError
  | invalidWildcard
deriving DecidableEq

/-- `WILDCARDS = ('*', '?')` membership test for a single character. -/
def isWildcardChar (c : Char) : Bool := c = '*' || c = '?'

/-- The accumulator loop inside `_MatchResource.components`: walk the
characters, split components on `.`, and emit `*` / `?` as their own
components.  `comp` is the buffer of the component being built. -/
def componentsLoop : List Char → List Char → List (List Char)
  | [], comp => [comp]
  | c :: rest, comp =>
    if c = '.' then comp :: componentsLoop rest []
    else if isWildcardChar c then comp :: [c] :: componentsLoop rest []
    else componentsLoop rest (comp ++ [c])

/-- `_MatchResource.components` up to and including the
`result = [ele for ele in result if ele]` filtering, before the
trailing-wildcard check. -/
def componentsRaw (resource_id : List Char) : List (List Char) :=
  (componentsLoop resource_id []).filter (fun ele => ele ≠ [])

/-- `_MatchResource.components`: the filtered component list, with the
`result[-1]` access (IndexError on an empty list) and the trailing
wildcard `ValueError`. -/
def components (resource_id : List Char) : Except MatchErr (List (List Char)) :=
  match (componentsRaw resource_id).getLast? with
  | none => .error .indexError
  | some lastComp =>
    if lastComp = ['*'] ∨ lastComp = ['?'] then .error .invalidWildcard
    else .ok (componentsRaw resource_id)

/-- `_MatchResource.pad_components`: locate the first `'*'` component
(`list.index`), pop it, and insert `length - len(expanded)` copies of
`'?'` at its position; if there is no `'*'` the list is returned as-is
(the `ValueError` from `.index` is swallowed). -/
def padComponents (comps : List (List Char)) (length : Nat) : List (List Char) :=
  match comps.findIdx? (fun c => c = ['*']) with
  | none => comps
  | some i =>
    let popped := comps.eraseIdx i
    popped.take i ++ List.replicate (length - popped.length) (['?'] : List Char) ++ popped.drop i

/-- `_MatchResource.compare_component`. -/
def compareComponent (comp1 comp2 : List Char) : Bool :=
  if comp1 = ['?'] ∨ comp2 = ['?'] then true else comp1 = comp2

/-- `_MatchResource.compare`: `all(starmap(compare_component, zip(...)))`.
Note that `zip` stops at the shorter of the two lists. -/
def compareAll (l1 l2 : List (List Char)) : Bool :=
  (l1.zip l2).all (fun p => compareComponent p.1 p.2)

/-- `match_resource(resource, string)`: build the two component lists
(resource first, so its errors surface first), pad both to
`max(len(resource_components), len(string_components))`, and compare. -/
def matchResource (resource string : List Char) : Except MatchErr Bool :=
  match components resource with
  | .error e => .error e
  | .ok rc =>
    match components string with
    | .error e => .error e
    | .ok sc =>
      let padLen := max rc.length sc.length
      .ok (compareAll (padComponents rc padLen) (padComponents sc padLen))

/-- Whether the last component of the raw component split is a wildcard
component (`*` or `?`). -/
def lastIsWildcard (s : List Char) : Bool :=
  match (componentsRaw s).getLast? with
  | none => false
  | some lastComp => lastComp = ['*'] || lastComp = ['?']

end XRP

namespace XRP

/-! ### Helper lemmas about the matcher -/

theorem components_eq_ok {s : List Char} {cs : List (List Char)}
    (h : components s = .ok cs) : cs = componentsRaw s := by
  unfold components at h
  split at h
  · exact absurd h (by simp)
  · split at h
    · exact absurd h (by simp)
    · exact (Except.ok.injEq _ _ ▸ h).symm

theorem components_ok_iff {s : List Char} :
    (∃ cs, components s = .ok cs) ↔ componentsRaw s ≠ [] ∧ lastIsWildcard s = false := by
  unfold components lastIsWildcard
  rcases hl : (componentsRaw s).getLast? with _ | lastComp
  · simp only [List.getLast?_eq_none_iff] at hl
    simp [hl]
  · have hne : componentsRaw s ≠ [] := by
      intro hc; rw [hc] at hl; simp at hl
    by_cases hw : lastComp = ['*'] ∨ lastComp = ['?']
    · simp only [if_pos hw, hne, true_and]
      constructor
      · rintro ⟨cs, hcs⟩; exact absurd hcs (by simp)
      · intro hfalse
        rcases hw with hw | hw <;> simp [hw] at hfalse
    · simp only [if_neg hw, true_and]
      push_neg at hw
      constructor
      · intro _; exact ⟨hne, by simp [hw.1, hw.2]⟩
      · intro _; exact ⟨componentsRaw s, rfl⟩

theorem compareComponent_comm (c1 c2 : List Char) :
    compareComponent c1 c2 = compareComponent c2 c1 := by
  unfold compareComponent
  by_cases h1 : c1 = ['?'] <;> by_cases h2 : c2 = ['?'] <;>
    simp [h1, h2, eq_comm]

theorem compareAll_comm (l1 l2 : List (List Char)) :
    compareAll l1 l2 = compareAll l2 l1 := by
  induction l1 generalizing l2 with
  | nil => cases l2 <;> rfl
  | cons a l1 ih =>
    cases l2 with
    | nil => rfl
    | cons b l2 =>
      simp only [compareAll, List.zip_cons_cons, List.all_cons] at *
      rw [compareComponent_comm, ih l2]

theorem compareAll_iff (l1 l2 : List (List Char)) :
    compareAll l1 l2 = true ↔
      ∀ i, i < min l1.length l2.length →
        compareComponent (l1.getD i []) (l2.getD i []) = true := by
  induction l1 generalizing l2 with
  | nil => simp [compareAll]
  | cons a l1 ih =>
    cases l2 with
    | nil => simp [compareAll]
    | cons b l2 =>
      simp only [compareAll, List.zip_cons_cons, List.all_cons, Bool.and_eq_true] at *
      constructor
      · rintro ⟨hab, hrest⟩ i hi
        cases i with
        | zero => simpa using hab
        | succ j =>
          have := (ih l2).mp hrest j (by simp at hi; omega)
          simpa using this
      · intro h
        refine ⟨by simpa using h 0 (by simp), (ih l2).mpr ?_⟩
        intro j hj
        have := h (j + 1) (by simp; omega)
        simpa using this

theorem padComponents_of_not_mem {comps : List (List Char)} (L : Nat)
    (h : (['*'] : List Char) ∉ comps) : padComponents comps L = comps := by
  unfold padComponents
  have hnone : comps.findIdx? (fun c => c = ['*']) = none := by
    rw [List.findIdx?_eq_none_iff]
    intro x hx
    simp only [decide_eq_false_iff_not]
    intro hcontra; exact h (hcontra ▸ hx)
  rw [hnone]

theorem padComponents_length_of_mem {comps : List (List Char)} {L : Nat}
    (h : (['*'] : List Char) ∈ comps) (hL : comps.length ≤ L) :
    (padComponents comps L).length = L := by
  unfold padComponents
  have hsome : comps.findIdx? (fun c => c = ['*']) = some (comps.findIdx (fun c => c = ['*'])) :=
    List.findIdx?_eq_some_of_exists ⟨['*'], h, by simp⟩
  rw [hsome]
  have hi : comps.findIdx (fun c => c = ['*']) < comps.length :=
    (List.findIdx?_eq_some_iff_findIdx_eq.mp hsome).1
  have hne : comps.length ≠ 0 := by omega
  have herase : (comps.eraseIdx (comps.findIdx (fun c => c = ['*']))).length = comps.length - 1 :=
    List.length_eraseIdx_of_lt hi
  simp only [List.length_append, List.length_take, List.length_replicate, List.length_drop, herase]
  omega

theorem components_error_invalid_iff (s : List Char) :
    components s = .error .invalidWildcard ↔ lastIsWildcard s = true := by
  unfold components lastIsWildcard
  rcases hl : (componentsRaw s).getLast? with _ | lastComp
  · simp
  · by_cases hw : lastComp = ['*'] ∨ lastComp = ['?']
    · simp only [if_pos hw]
      rcases hw with hw | hw <;> simp [hw]
    · push_neg at hw
      simp [if_neg, hw.1, hw.2]

theorem components_error_index_iff (s : List Char) :
    components s = .error .indexError ↔ componentsRaw s = [] := by
  unfold components
  rcases hl : (componentsRaw s).getLast? with _ | lastComp
  · simp only [List.getLast?_eq_none_iff] at hl
    simp [hl]
  · have hne : componentsRaw s ≠ [] := by
      intro hc; rw [hc] at hl; simp at hl
    by_cases hw : lastComp = ['*'] ∨ lastComp = ['?'] <;> simp [hw, hne]

/-! ### Claims about the wildcard matcher -/

/-- C9: `match_resource` is not total — whenever an argument's component
split yields no non-empty components (for example the empty string or
`"."`), the `result[-1]` access raises `IndexError` rather than returning
a boolean or raising the invalid-wildcard error. -/
theorem claim_c9_match_index_error (s t : List Char) (h : componentsRaw s = []) :
    matchResource s t = .error .indexError := by
  unfold matchResource
  rw [(components_error_index_iff s).mpr h]

/-- Witness for C9 at the empty string and at `"."`. -/
theorem claim_c9_match_index_error_witness :
    componentsRaw [] = [] ∧ componentsRaw ['.'] = [] ∧
      matchResource [] ['a'] = .error .indexError ∧
      matchResource ['.'] ['a'] = .error .indexError :=
  ⟨rfl, rfl, claim_c9_match_index_error [] ['a'] rfl,
    claim_c9_match_index_error ['.'] ['a'] rfl⟩

/-- C6: matching is commutative between its two arguments whenever it does
not raise an error. -/
theorem claim_c6_match_commutative (r p : List Char) (b : Bool)
    (h : matchResource r p = .ok b) : matchResource p r = .ok b := by
  unfold matchResource at h ⊢
  rcases hr : components r with er | rc <;> rw [hr] at h
  · exact absurd h (by simp)
  · rcases hp : components p with ep | pc <;> rw [hp] at h
    · exact absurd h (by simp)
    · simp only [Except.ok.injEq] at h ⊢
      rw [max_comm pc.length rc.length, compareAll_comm]
      exact h

/-- Witness for C6 on a concrete matching pair. -/
theorem claim_c6_match_commutative_witness :
    matchResource ("a.b.c".toList) ("a.?.c".toList) = .ok true ∧
      matchResource ("a.?.c".toList) ("a.b.c".toList) = .ok true :=
  ⟨rfl, claim_c6_match_commutative _ _ true rfl⟩

/-- C5 counterexample: for the pair `(".", "a.*")` the second argument's
component sequence ends in the wildcard `*`, yet matching fails with
`IndexError` (the first argument's empty component split is hit first),
not with `InvalidWildcardError` as the claim requires. -/
theorem claim_c5_counterexample :
    lastIsWildcard ("a.*".toList) = true ∧
      matchResource (".".toList) ("a.*".toList) = .error .indexError ∧
      matchResource (".".toList) ("a.*".toList) ≠ .error .invalidWildcard := by
  refine ⟨rfl, rfl, fun hcontra => ?_⟩
  have h2 : (Except.error MatchErr.indexError : Except MatchErr Bool) =
      .error .invalidWildcard := hcontra
  simp at h2

/-- C5 (amended): matching fails with `InvalidWildcardError` exactly when
the first argument's component split is non-empty and ends in `*` or `?`,
or the first argument's split is non-empty with a non-wildcard last
component and the second argument's split is non-empty and ends in `*` or
`?`.  (When the first argument's split is empty, the failure is
`IndexError` even if the second argument ends in a wildcard.) -/
theorem claim_c5_invalid_wildcard (r s : List Char) :
    matchResource r s = .error .invalidWildcard ↔
      (lastIsWildcard r = true ∨
        (componentsRaw r ≠ [] ∧ lastIsWildcard r = false ∧ lastIsWildcard s = true)) := by
  unfold matchResource
  rcases hr : components r with er | rc
  · rcases er with _ | _
    · have hraw : componentsRaw r = [] := (components_error_index_iff r).mp hr
      have hlw : lastIsWildcard r = false := by
        unfold lastIsWildcard; rw [hraw]; rfl
      simp [hlw, hraw]
    · have hlw : lastIsWildcard r = true := (components_error_invalid_iff r).mp hr
      simp [hlw]
  · have hok : ∃ cs, components r = .ok cs := ⟨rc, hr⟩
    have hfacts := components_ok_iff.mp hok
    rcases hs : components s with es | sc
    · rcases es with _ | _
      · have hlws : lastIsWildcard s = false := by
          have hraw : componentsRaw s = [] := (components_error_index_iff s).mp hs
          unfold lastIsWildcard; rw [hraw]; rfl
        simp [hfacts.2, hlws]
      · have hlws : lastIsWildcard s = true := (components_error_invalid_iff s).mp hs
        simp [hfacts.1, hfacts.2, hlws]
    · have hoks := components_ok_iff.mp ⟨sc, hs⟩
      simp [hfacts.2, hoks.2]

/-- Witness for C5: a pattern ending in `*` (the spec's example `"a.*"`)
does raise `InvalidWildcardError`. -/
theorem claim_c5_invalid_wildcard_witness :
    matchResource ("a.b".toList) ("a.*".toList) = .error .invalidWildcard :=
  (claim_c5_invalid_wildcard _ _).mpr (Or.inr ⟨by decide, rfl, rfl⟩)

/-- C3 counterexample: on the pair `("a.b.c", "a.b")` neither sequence
contains `*`, the padded length (the maximum, 3) exceeds the second
sequence's length, and yet the match succeeds even though position 2
disagrees (a literal `"c"` on one side, nothing on the other) — the code
compares only up to the shorter sequence because `zip` truncates. -/
theorem claim_c3_counterexample :
    matchResource ("a.b.c".toList) ("a.b".toList) = .ok true ∧
      ¬(∀ i, i < max (componentsRaw ("a.b.c".toList)).length
                    (componentsRaw ("a.b".toList)).length →
          compareComponent
            ((padComponents (componentsRaw ("a.b.c".toList))
              (max (componentsRaw ("a.b.c".toList)).length
                   (componentsRaw ("a.b".toList)).length)).getD i [])
            ((padComponents (componentsRaw ("a.b".toList))
              (max (componentsRaw ("a.b.c".toList)).length
                   (componentsRaw ("a.b".toList)).length)).getD i []) = true) := by
  refine ⟨rfl, fun h => ?_⟩
  exact absurd (h 2 (by decide)) (by decide)

/-- C3 (amended): for inputs on which matching returns a boolean, a
component sequence containing `*` is padded (its first `*` replaced by
`?` components) to exactly the maximum of the two sequence lengths, a
sequence without `*` is left unchanged (and may be shorter), and the
match succeeds if and only if every position up to the length of the
*shorter* of the two padded sequences has `?` on either side or equal
literal components (`zip` truncates at the shorter sequence). -/
theorem claim_c3_padding_and_compare (r s : List Char) (rc sc : List (List Char))
    (hr : components r = .ok rc) (hs : components s = .ok sc) :
    ((['*'] : List Char) ∈ rc →
        (padComponents rc (max rc.length sc.length)).length = max rc.length sc.length) ∧
    ((['*'] : List Char) ∉ rc → padComponents rc (max rc.length sc.length) = rc) ∧
    ((['*'] : List Char) ∈ sc →
        (padComponents sc (max rc.length sc.length)).length = max rc.length sc.length) ∧
    ((['*'] : List Char) ∉ sc → padComponents sc (max rc.length sc.length) = sc) ∧
    matchResource r s =
      .ok (compareAll (padComponents rc (max rc.length sc.length))
            (padComponents sc (max rc.length sc.length))) ∧
    (compareAll (padComponents rc (max rc.length sc.length))
          (padComponents sc (max rc.length sc.length)) = true ↔
      ∀ i, i < min (padComponents rc (max rc.length sc.length)).length
                   (padComponents sc (max rc.length sc.length)).length →
        compareComponent
          ((padComponents rc (max rc.length sc.length)).getD i [])
          ((padComponents sc (max rc.length sc.length)).getD i []) = true) := by
  refine ⟨fun hm => padComponents_length_of_mem hm (Nat.le_max_left _ _),
    fun hm => padComponents_of_not_mem _ hm,
    fun hm => padComponents_length_of_mem hm (Nat.le_max_right _ _),
    fun hm => padComponents_of_not_mem _ hm, ?_, compareAll_iff _ _⟩
  unfold matchResource
  rw [hr, hs]

/-- Witness for C3 at the spec's own example pair. -/
theorem claim_c3_padding_and_compare_witness :
    components ("comp_a.*.comp_d.attribute".toList) =
      .ok (componentsRaw ("comp_a.*.comp_d.attribute".toList)) ∧
    matchResource ("comp_a.*.comp_d.attribute".toList) ("comp_a.*.attribute".toList) =
      .ok (compareAll
        (padComponents (componentsRaw ("comp_a.*.comp_d.attribute".toList))
          (max (componentsRaw ("comp_a.*.comp_d.attribute".toList)).length
               (componentsRaw ("comp_a.*.attribute".toList)).length))
        (padComponents (componentsRaw ("comp_a.*.attribute".toList))
          (max (componentsRaw ("comp_a.*.comp_d.attribute".toList)).length
               (componentsRaw ("comp_a.*.attribute".toList)).length))) :=
  ⟨rfl,
    (claim_c3_padding_and_compare ("comp_a.*.comp_d.attribute".toList)
      ("comp_a.*.attribute".toList)
      (componentsRaw ("comp_a.*.comp_d.attribute".toList))
      (componentsRaw ("comp_a.*.attribute".toList)) rfl rfl).2.2.2.2.1⟩

end XRP

namespace XRP

/-! ## Embedding of `xrp/parser.py`

The input is a character stream; `PeekableIter` only buffers characters,
so the stream is modelled as a plain `List Char`.  `take_line` consumes
the characters up to the next newline *and* the newline itself (Python's
`takewhile` swallows the first failing element); the loop therefore
continues at `afterLine input`. -/

/-- Ways a parse pass can fail, one per Python exception that can escape
`XParser.parse`:
* `xParseError` — an `XParseError` raised by a statement recognizer;
* `stopIteration` — `peek(2)` past the end of input (a lone `#` at EOF);
* `typeError` — `parse_method_for` returns `None` for `#` followed by a
  character other than `d` or `i`, and calling `None` raises `TypeError`;
* `attributeError` — the `#include` regex does not match, so
  `match.group(1)` is called on `None`. -/
inductive ParseErr
  | xParseError
  | stopIteration
  | typeError
  | attributeError
deriving DecidableEq

/-- Parsed statements (`XResourceStatement`, `XDefineStatement`,
`XCommentStatement`, `XIncludeStatement`, `Whitespace`).  An include
statement stores no line number (`XIncludeStatement.__init__` never sets
`_line`). -/
inductive XStatement
  | resource (resource value : List Char) (line : Nat)
  | defineS (name value : List Char) (line : Nat)
  | comment (comment : List Char) (line : Nat)
  | includeS (file : List Char)
  | whitespaceS (lineString : List Char) (line : Nat)
deriving DecidableEq

/-- The `line` property: `none` models the `AttributeError` raised when
reading `.line` on an `XIncludeStatement` (it has no `_line`). -/
def lineOf : XStatement → Option Nat
  | .resource _ _ line => some line
  | .defineS _ _ line => some line
  | .comment _ line => some line
  | .includeS _ => none
  | .whitespaceS _ line => some line

/-- `__str__` of each statement class. -/
def strOfStatement : XStatement → List Char
  | .resource r v _ => r ++ ':' :: v ++ ['\n']
  | .defineS n v _ => '#' :: 'd' :: 'e' :: 'f' :: 'i' :: 'n' :: 'e' :: ' ' :: n ++ ' ' :: v ++ ['\n']
  | .comment c _ => '!' :: c ++ ['\n']
  | .includeS f => '#' :: 'i' :: 'n' :: 'c' :: 'l' :: 'u' :: 'd' :: 'e' :: ' ' :: '"' :: f ++ ['"']
  | .whitespaceS ls _ => ls

/-- The `.value` attribute (present on resource and define statements,
the only kinds whose `.value` the view layer reads). -/
def stmtValue : XStatement → List Char
  | .resource _ v _ => v
  | .defineS _ v _ => v
  | .comment c _ => c
  | .includeS f => f
  | .whitespaceS ls _ => ls

/-- `take_line`: the characters of the current line, newline excluded. -/
def takeLineStr (input : List Char) : List Char :=
  input.takeWhile (fun c => c ≠ '\n')

/-- The stream position after `take_line`: everything after the first
newline (which `takewhile` consumed), or `[]` if there is none. -/
def afterLine (input : List Char) : List Char :=
  (input.dropWhile (fun c => c ≠ '\n')).drop 1

/-- Python `str.strip()` whitespace (the ASCII whitespace characters). -/
def isPyWhitespace (c : Char) : Bool :=
  c = ' ' || c = '\t' || c = '\n' || c = '\r' || c = '\x0b' || c = '\x0c'

/-- `str.strip()`. -/
def strip (s : List Char) : List Char :=
  ((s.dropWhile isPyWhitespace).reverse.dropWhile isPyWhitespace).reverse

/-- A `\w` character of the define regex (ASCII word characters). -/
def isWordChar (c : Char) : Bool := c.isAlphanum || c = '_'

/-- `XResourceStatement.from_iter`: match `([^:]+):(.*)` against the
line; on success return the stripped id and value, otherwise raise
`XParseError`.  The regex requires at least one non-`:` character before
the first `:`. -/
def resourceFromIter (input : List Char) : Except ParseErr (List Char × List Char) :=
  let line := takeLineStr input
  let pre := line.takeWhile (fun c => c ≠ ':')
  if ':' ∈ line ∧ pre ≠ [] then
    .ok (strip pre, strip ((line.dropWhile (fun c => c ≠ ':')).drop 1))
  else .error .xParseError

/-- The literal `#define ` prefix of the define regex. -/
def defineTok : List Char := ['#', 'd', 'e', 'f', 'i', 'n', 'e', ' ']

/-- `XDefineStatement.from_iter`: match `#define (\w+) (.*)` against the
line; the name is a maximal non-empty run of word characters followed by
a single space, the value is the (unstripped) remainder. -/
def defineFromIter (input : List Char) : Except ParseErr (List Char × List Char) :=
  if (takeLineStr input).take 8 = defineTok then
    if ((takeLineStr input).drop 8).takeWhile isWordChar ≠ [] ∧
        (((takeLineStr input).drop 8).dropWhile isWordChar).head? = some ' ' then
      .ok (((takeLineStr input).drop 8).takeWhile isWordChar,
        (((takeLineStr input).drop 8).dropWhile isWordChar).drop 1)
    else .error .xParseError
  else .error .xParseError

/-- `XCommentStatement.from_iter`: the line must be non-empty and start
with `!`; the comment text is the rest of the line. -/
def commentFromIter (input : List Char) : Except ParseErr (List Char) :=
  match takeLineStr input with
  | [] => .error .xParseError
  | c :: rest => if c = '!' then .ok rest else .error .xParseError

/-- `Whitespace.from_iter` / `Whitespace.__init__`: every character of
the line must be in `WHITESPACE_CHARS = (' ', '\n')`; the stored
`line_string` is the line plus a trailing newline (appended even when
the input ended without one). -/
def whitespaceFromIter (input : List Char) : Except ParseErr (List Char) :=
  if (takeLineStr input).all (fun c => c = ' ' || c = '\n') then
    .ok (takeLineStr input ++ ['\n'])
  else .error .xParseError

/-- The `(.*)` group of `#include "(.*)"`: everything up to the last `"`
(the greedy `.*` backtracks to the final quote). -/
def upToLastQuote (l : List Char) : List Char :=
  ((l.reverse.dropWhile (fun c => c ≠ '"')).drop 1).reverse

/-- `XIncludeStatement.from_iter`: match `#include "(.*)"`; when the
regex fails, `match` is `None` and `.group(1)` raises `AttributeError`.
The regex is not anchored at the end, so trailing characters after the
last quote are allowed. -/
def includeFromIter (input : List Char) : Except ParseErr (List Char) :=
  if (takeLineStr input).take 10 = '#' :: 'i' :: 'n' :: 'c' :: 'l' :: 'u' :: 'd' :: 'e' :: ' ' :: ['"'] ∧
      '"' ∈ (takeLineStr input).drop 10 then
    .ok (upToLastQuote ((takeLineStr input).drop 10))
  else .error .attributeError

/-- The parser state: `XParser`'s attributes after `clear()`/parsing.
`resources` and `defines` are insertion-ordered dicts, modelled as
association lists. -/
structure XParserState where
  resources : List (List Char × XStatement)
  defines : List (List Char × XStatement)
  includes : List XStatement
  comments : List XStatement
  whitespace : List XStatement
  emptyLines : List Nat
  currentLine : Nat
deriving DecidableEq

/-- The state produced by `XParser.__init__` / `clear()`. -/
def initState : XParserState :=
  { resources := [], defines := [], includes := [], comments := [],
    whitespace := [], emptyLines := [], currentLine := 0 }

/-- Python `dict.__setitem__`: replace the value at an existing key in
place, or append a new key at the end. -/
def dictInsert (d : List (List Char × XStatement)) (k : List Char) (v : XStatement) :
    List (List Char × XStatement) :=
  match d with
  | [] => [(k, v)]
  | (k', v') :: rest => if k' = k then (k, v) :: rest else (k', v') :: dictInsert rest k v

/-- Python `dict.get(k)` as `Option`. -/
def dictGet? (d : List (List Char × XStatement)) (k : List Char) : Option XStatement :=
  match d with
  | [] => none
  | (k', v') :: rest => if k' = k then some v' else dictGet? rest k

/-- The recognizer kinds `parse_method_for` can select. -/
inductive Recognizer
  | comment
  | whitespace
  | defineR
  | includeR
  | resource
deriving DecidableEq

/-- `XParser.parse_method_for`, reading `peek()` and (only in the `#`
branch) `peek(2)`: `!` → comment, space/newline → whitespace, `#d…` →
define, `#i…` → include, `#` followed by anything else → no method
(`none`, which the caller then calls and gets `TypeError`), `#` at end
of input → `StopIteration` from `peek(2)`, anything else → resource. -/
def parseMethodFor (input : List Char) : Except ParseErr (Option Recognizer) :=
  match input with
  | [] => .error .stopIteration
  | c :: rest =>
    if c = '!' then .ok (some .comment)
    else if c = ' ' || c = '\n' then .ok (some .whitespace)
    else if c = '#' then
      match rest.head? with
      | none => .error .stopIteration
      | some c2 =>
        if c2 = 'd' then .ok (some .defineR)
        else if c2 = 'i' then .ok (some .includeR)
        else .ok none
    else .ok (some .resource)

/-- One iteration of the dispatch loop body: pick the recognizer for the
peeked character, run it, and file the produced statement into the
matching collection (`parse_resource` … `parse_white_space`).  The line
counter is incremented by the loop, not here. -/
def parseLineSt (st : XParserState) (input : List Char) : Except ParseErr XParserState :=
  match parseMethodFor input with
  | .error e => .error e
  | .ok none => .error .typeError
  | .ok (some .comment) =>
    match commentFromIter input with
    | .error e => .error e
    | .ok text => .ok { st with comments := st.comments ++ [.comment text st.currentLine] }
  | .ok (some .whitespace) =>
    match whitespaceFromIter input with
    | .error e => .error e
    | .ok ls =>
      .ok { st with emptyLines := st.emptyLines ++ [st.currentLine],
                    whitespace := st.whitespace ++ [.whitespaceS ls st.currentLine] }
  | .ok (some .defineR) =>
    match defineFromIter input with
    | .error e => .error e
    | .ok (name, value) =>
      .ok { st with defines := dictInsert st.defines name (.defineS name value st.currentLine) }
  | .ok (some .includeR) =>
    match includeFromIter input with
    | .error e => .error e
    | .ok file => .ok { st with includes := st.includes ++ [.includeS file] }
  | .ok (some .resource) =>
    match resourceFromIter input with
    | .error e => .error e
    | .ok (rid, value) =>
      .ok { st with resources := dictInsert st.resources rid (.resource rid value st.currentLine) }

/-- The `while True` loop of `XParser.parse`, with explicit fuel.  Each
iteration consumes at least one character, so `input.length + 1` fuel
always suffices (`parseLoopF_fuel_irrelevant` below); the fuel-exhausted
branch is unreachable from `parse`. -/
def parseLoopF : Nat → List Char → XParserState → Except ParseErr XParserState
  | 0, _, _ => .error .stopIteration
  | _ + 1, [], st => .ok st
  | fuel + 1, c :: cs, st =>
    match parseLineSt st (c :: cs) with
    | .error e => .error e
    | .ok st' => parseLoopF fuel (afterLine (c :: cs)) { st' with currentLine := st'.currentLine + 1 }

/-- `XParser.parse` starting from a cleared parser. -/
def parse (input : List Char) : Except ParseErr XParserState :=
  parseLoopF (input.length + 1) input initState

/-- The number of loop iterations (`take_line` calls) on an input, with
the same fuel discipline as `parseLoopF`. -/
def numLinesF : Nat → List Char → Nat
  | 0, _ => 0
  | _ + 1, [] => 0
  | fuel + 1, c :: cs => numLinesF fuel (afterLine (c :: cs)) + 1

/-- The number of lines of an input (last line counted even without a
trailing newline). -/
def numLines (input : List Char) : Nat :=
  numLinesF (input.length + 1) input

/-! ## Embedding of `xrp/views.py` -/

/-- Errors the view layer can raise while looking a line up:
`IndexError` from `BaseView.statement_at_line` when no statement owns the
line, and `AttributeError` from reading `.line` on an include statement. -/
inductive ViewErr
  | indexError
  | attributeError
deriving DecidableEq

/-- `BaseView.statement_at_line`: scan the view's statements and return
the first whose `.line` equals `line_num`; reading `.line` on an include
statement raises `AttributeError`; falling off the end raises
`IndexError`. -/
def statementAtLine (stmts : List XStatement) (n : Nat) : Except ViewErr XStatement :=
  match stmts with
  | [] => .error .indexError
  | s :: rest =>
    match lineOf s with
    | none => .error .attributeError
    | some m => if m = n then .ok s else statementAtLine rest n

/-- The five sub-views of `XFileView`, in the order of `self.views`:
resources, definitions, included, comments, whitespace.  A dict view's
`x_statements` is its values in insertion order. -/
def viewsOf (st : XParserState) : List (List XStatement) :=
  [st.resources.map Prod.snd, st.defines.map Prod.snd, st.includes, st.comments, st.whitespace]

/-- `XFileView.x_statement` / `text_at_line`: try each sub-view in order,
treating `IndexError` as "not in this view" and letting any other error
propagate; raise `IndexError` if no view has the line. -/
def firstStatementAt (views : List (List XStatement)) (n : Nat) : Except ViewErr XStatement :=
  match views with
  | [] => .error .indexError
  | v :: rest =>
    match statementAtLine v n with
    | .ok s => .ok s
    | .error .indexError => firstStatementAt rest n
    | .error .attributeError => .error .attributeError

/-- `XFileView.x_statement` (also `__getitem__`). -/
def xFileStatementAt (st : XParserState) (n : Nat) : Except ViewErr XStatement :=
  firstStatementAt (viewsOf st) n

/-- `XFileView.text_at_line`: `str()` of the statement at the line. -/
def textAtLine (st : XParserState) (n : Nat) : Except ViewErr (List Char) :=
  (xFileStatementAt st n).map strOfStatement

/-- `XFileView.__len__`: `line_count = parser.current_line + 1`. -/
def viewLen (st : XParserState) : Nat := st.currentLine + 1

/-- The loop of `XFileView.full_text`, concatenating `text_at_line(n)`
for `n = start, start+1, …` until the first `IndexError`.  The Python
loop is unbounded; fuel `currentLine + 1` is enough because every parsed
statement's line is below `currentLine`, so `full_text` below never
reaches the fuel-exhausted branch on a parser-produced state. -/
def fullTextFrom (st : XParserState) : Nat → Nat → Except ViewErr (List Char)
  | 0, _ => .ok []
  | fuel + 1, n =>
    match textAtLine st n with
    | .error .indexError => .ok []
    | .error .attributeError => .error .attributeError
    | .ok t =>
      match fullTextFrom st fuel (n + 1) with
      | .error e => .error e
      | .ok rest => .ok (t ++ rest)

/-- `XFileView.full_text`. -/
def fullText (st : XParserState) : Except ViewErr (List Char) :=
  fullTextFrom st (st.currentLine + 1) 0

/-- `ResourcesView.__getitem__`: look the key up among the resource
statements, then resolve the raw value through the definitions table
(`self.definition_ctx.get(raw_val, raw_val)`).  `none` models the
`KeyError` for an absent key. -/
def resourcesViewGet (st : XParserState) (key : List Char) : Option (List Char) :=
  match dictGet? st.resources key with
  | none => none
  | some stmt =>
    match dictGet? st.defines (stmtValue stmt) with
    | some d => some (stmtValue d)
    | none => some (stmtValue stmt)

/-- `DefinitionsView.__getitem__`: the raw define value. -/
def definitionsViewGet (st : XParserState) (key : List Char) : Option (List Char) :=
  match dictGet? st.defines key with
  | none => none
  | some d => some (stmtValue d)

/-! ### Basic list-splitting lemmas used to evaluate the recognizers -/

theorem takeWhile_dropWhile_stop (p : Char → Bool) (l : List Char) (c : Char) (r : List Char)
    (hl : ∀ a ∈ l, p a = true) (hc : p c = false) :
    ((l ++ c :: r).takeWhile p = l) ∧ ((l ++ c :: r).dropWhile p = c :: r) := by
  induction l with
  | nil => simp [List.takeWhile, List.dropWhile, hc]
  | cons a l ih =>
    have ha : p a = true := hl a (List.mem_cons_self a l)
    have ih' := ih (fun x hx => hl x (List.mem_cons_of_mem a hx))
    simp [List.takeWhile, List.dropWhile, ha, ih'.1, ih'.2]

theorem takeWhile_dropWhile_all (p : Char → Bool) (l r : List Char)
    (hl : ∀ a ∈ l, p a = true) :
    ((l ++ r).takeWhile p = l ++ r.takeWhile p) ∧ ((l ++ r).dropWhile p = r.dropWhile p) := by
  induction l with
  | nil => simp
  | cons a l ih =>
    have ha : p a = true := hl a (List.mem_cons_self a l)
    have ih' := ih (fun x hx => hl x (List.mem_cons_of_mem a hx))
    simp [List.takeWhile, List.dropWhile, ha, ih'.1, ih'.2]

theorem takeLineStr_append (l r : List Char) (hl : '\n' ∉ l) :
    takeLineStr (l ++ '\n' :: r) = l := by
  unfold takeLineStr
  exact (takeWhile_dropWhile_stop _ l '\n' r
    (fun a ha => by simp; intro hcontra; exact hl (hcontra ▸ ha)) (by simp)).1

theorem afterLine_append (l r : List Char) (hl : '\n' ∉ l) :
    afterLine (l ++ '\n' :: r) = r := by
  unfold afterLine
  rw [(takeWhile_dropWhile_stop _ l '\n' r
    (fun a ha => by simp; intro hcontra; exact hl (hcontra ▸ ha)) (by simp)).2]
  rfl

theorem takeLineStr_of_no_newline (l : List Char) (hl : '\n' ∉ l) :
    takeLineStr l = l := by
  unfold takeLineStr
  have h : ∀ a ∈ l, (fun c => decide (c ≠ '\n')) a = true := by
    intro a ha
    simp only [decide_eq_true_eq]
    intro hcontra; exact hl (hcontra ▸ ha)
  exact List.takeWhile_eq_self_iff.mpr h

theorem afterLine_of_no_newline (l : List Char) (hl : '\n' ∉ l) :
    afterLine l = [] := by
  unfold afterLine
  have h : l.dropWhile (fun c => decide (c ≠ '\n')) = [] := by
    rw [List.dropWhile_eq_nil_iff]
    intro a ha
    simp only [decide_eq_true_eq]
    intro hcontra; exact hl (hcontra ▸ ha)
  rw [h]
  rfl

/-! ### Claims about dispatch and the resource recognizer -/

/-- C2 counterexample: a line starting with `#include` is dispatched to
the include recognizer, not to the resource recognizer, and a well-formed
`#include "f"` line parses *successfully*, recording an include statement
instead of being rejected as a malformed resource. -/
theorem claim_c2_counterexample :
    parseMethodFor ("#include \"f\"".toList) = .ok (some .includeR) ∧
      some Recognizer.includeR ≠ some Recognizer.resource ∧
      (∃ st, parse ("#include \"f\"\n".toList) = .ok st ∧
        st.includes = [.includeS ['f']]) :=
  ⟨rfl, by simp, ⟨_, rfl, rfl⟩⟩

/-- C2 (amended): dispatch inspects only one or two leading characters,
in order: `!` → Comment; space or newline → BlankLine; `#` then `d` →
Define; `#` then `i` → Include (the line is recorded, not rejected); `#`
then any other character selects no recognizer (the parse pass fails
with `TypeError`); a lone `#` at end of input fails with
`StopIteration`; every other line → Resource. -/
theorem claim_c2_dispatch :
    (∀ cs, parseMethodFor ('!' :: cs) = .ok (some .comment)) ∧
    (∀ c cs, c = ' ' ∨ c = '\n' → parseMethodFor (c :: cs) = .ok (some .whitespace)) ∧
    (∀ cs, parseMethodFor ('#' :: 'd' :: cs) = .ok (some .defineR)) ∧
    (∀ cs, parseMethodFor ('#' :: 'i' :: cs) = .ok (some .includeR)) ∧
    (∀ c2 cs, c2 ≠ 'd' → c2 ≠ 'i' → parseMethodFor ('#' :: c2 :: cs) = .ok none) ∧
    parseMethodFor ['#'] = .error .stopIteration ∧
    (∀ c cs, c ≠ '!' → c ≠ ' ' → c ≠ '\n' → c ≠ '#' →
      parseMethodFor (c :: cs) = .ok (some .resource)) ∧
    (∃ st, parse ("#include \"file\"\n".toList) = .ok st ∧
      st.includes ≠ [] ∧ st.resources = []) := by
  refine ⟨fun cs => rfl, ?_, fun cs => rfl, fun cs => rfl, ?_, rfl, ?_, ⟨_, rfl, by simp, rfl⟩⟩
  · rintro c cs (rfl | rfl) <;> rfl
  · intro c2 cs h1 h2
    simp [parseMethodFor, h1, h2]
  · intro c cs h1 h2 h3 h4
    simp [parseMethodFor, h1, h2, h3, h4]

/-- Witness for C2 on concrete dispatches that need the hypotheses. -/
theorem claim_c2_dispatch_witness :
    parseMethodFor [' ', 'x'] = .ok (some .whitespace) ∧
      parseMethodFor ['#', 'x'] = .ok none ∧
      parseMethodFor ['U', 'R'] = .ok (some .resource) :=
  ⟨claim_c2_dispatch.2.1 ' ' ['x'] (Or.inl rfl),
    claim_c2_dispatch.2.2.2.2.1 'x' [] (by decide) (by decide),
    claim_c2_dispatch.2.2.2.2.2.2.1 'U' ['R'] (by decide) (by decide) (by decide) (by decide)⟩

/-- C7 counterexample: the line `":v"` does contain a `:`, yet the
resource recognizer rejects it (the regex `([^:]+):(.*)` needs at least
one character before the colon), so "fails exactly when no `:` is
present" is wrong. -/
theorem claim_c7_counterexample :
    resourceFromIter (':' :: ['v']) = .error .xParseError ∧
      ':' ∈ takeLineStr (':' :: ['v']) :=
  ⟨rfl, by decide⟩

theorem resourceFromIter_split (pre post : List Char) (hpre : ':' ∉ pre) (hne : pre ≠ [])
    (hnl : '\n' ∉ pre) :
    resourceFromIter (pre ++ ':' :: post) =
      .ok (strip pre, strip (post.takeWhile (fun c => c ≠ '\n'))) := by
  unfold resourceFromIter
  have hline : takeLineStr (pre ++ ':' :: post) = pre ++ ':' :: post.takeWhile (fun c => c ≠ '\n') := by
    unfold takeLineStr
    have := (takeWhile_dropWhile_all (fun c => decide (c ≠ '\n')) pre (':' :: post)
      (fun a ha => by simp; intro hcontra; exact hnl (hcontra ▸ ha))).1
    rw [this]
    simp [List.takeWhile]
  have hsplit := takeWhile_dropWhile_stop (fun c => decide (c ≠ ':')) pre ':'
    (post.takeWhile (fun c => c ≠ '\n'))
    (fun a ha => by simp; intro hcontra; exact hpre (hcontra ▸ ha)) (by simp)
  rw [hline]
  simp only [hsplit.1, hsplit.2]
  have hmem : ':' ∈ pre ++ ':' :: post.takeWhile (fun c => c ≠ '\n') := by simp
  rw [if_pos ⟨hmem, hne⟩]
  rfl

theorem resourceFromIter_no_colon (input : List Char) (hmem : ':' ∉ takeLineStr input) :
    resourceFromIter input = .error .xParseError := by
  unfold resourceFromIter
  rw [if_neg]
  intro hcontra
  exact hmem hcontra.1

theorem resourceFromIter_leading_colon (rest : List Char) :
    resourceFromIter (':' :: rest) = .error .xParseError := by
  unfold resourceFromIter
  rw [if_neg]
  intro hcontra
  have := hcontra.2
  unfold takeLineStr at this
  simp [List.takeWhile] at this

/-- C7 (amended): the resource recognizer splits its line at the *first*
`:` (there is no escape handling), strips both sides, and fails with the
malformed-resource error exactly when the line contains no `:` or has no
character before the first `:`. -/
theorem claim_c7_resource_recognizer :
    (∀ pre post, ':' ∉ pre → pre ≠ [] → '\n' ∉ pre →
      resourceFromIter (pre ++ ':' :: post) =
        .ok (strip pre, strip (post.takeWhile (fun c => c ≠ '\n')))) ∧
    (∀ input, ':' ∉ takeLineStr input → resourceFromIter input = .error .xParseError) ∧
    (∀ rest, resourceFromIter (':' :: rest) = .error .xParseError) :=
  ⟨resourceFromIter_split, resourceFromIter_no_colon, resourceFromIter_leading_colon⟩

/-- Witness for C7 on the line `a:b`. -/
theorem claim_c7_resource_recognizer_witness :
    resourceFromIter ('a' :: ':' :: ['b']) = .ok (['a'], ['b']) := by
  have h := claim_c7_resource_recognizer.1 ['a'] ['b'] (by decide) (by decide) (by decide)
  exact h

/-- C4: for every state and every resource id present in it, the
resources view returns the recorded define's value when the resource's
raw value is a key of the define table as it stands at query time, and
the raw value unchanged otherwise; resolution is single-step.  The
closed conjuncts run the spec's examples through the full parser: the
spec's macro example, a single-step example (`a` resolves to `b`
literally even though `b` names another define), and a define occurring
*after* the resource line still applying at query time. -/
theorem claim_c4_macro_resolution :
    (∀ st key stmt, dictGet? st.resources key = some stmt →
      resourcesViewGet st key = some (match dictGet? st.defines (stmtValue stmt) with
        | some d => stmtValue d
        | none => stmtValue stmt)) ∧
    (∃ st, parse ("#define white #FFFFFF\n*fg:white\n".toList) = .ok st ∧
      resourcesViewGet st ("*fg".toList) = some ("#FFFFFF".toList) ∧
      definitionsViewGet st ("white".toList) = some ("#FFFFFF".toList)) ∧
    (∃ st, parse ("#define a b\n#define b c\nr:a\n".toList) = .ok st ∧
      resourcesViewGet st ['r'] = some ['b'] ∧
      definitionsViewGet st ['b'] = some ['c']) ∧
    (∃ st, parse ("*fg:white\n#define white #FFF\n".toList) = .ok st ∧
      resourcesViewGet st ("*fg".toList) = some ("#FFF".toList)) := by
  refine ⟨?_, ⟨_, rfl, rfl, rfl⟩, ⟨_, rfl, rfl, rfl⟩, ⟨_, rfl, rfl⟩⟩
  intro st key stmt h
  unfold resourcesViewGet
  rw [h]
  rcases hd : dictGet? st.defines (stmtValue stmt) with _ | d <;> simp [hd]

/-- Witness for C4 on an explicit one-resource state. -/
theorem claim_c4_macro_resolution_witness :
    resourcesViewGet
      { resources := [(['a'], XStatement.resource ['a'] ['v'] 0)], defines := [],
        includes := [], comments := [], whitespace := [], emptyLines := [],
        currentLine := 1 } ['a'] = some ['v'] := by
  have h := claim_c4_macro_resolution.1
    { resources := [(['a'], XStatement.resource ['a'] ['v'] 0)], defines := [],
      includes := [], comments := [], whitespace := [], emptyLines := [],
      currentLine := 1 } ['a'] (XStatement.resource ['a'] ['v'] 0) rfl
  exact h

/-! ### Evaluation lemmas for one loop iteration on a well-formed line -/

/-- Whether a line's first character sends it to the resource recognizer
(not `!`, not a whitespace character, not `#`). -/
def isResourceLike (l : List Char) : Bool :=
  match l with
  | [] => false
  | c :: _ => !(c = '!' || c = ' ' || c = '\n' || c = '#')

theorem dispatch_resource {c : Char} (cs : List Char)
    (h1 : c ≠ '!') (h2 : c ≠ ' ') (h3 : c ≠ '\n') (h4 : c ≠ '#') :
    parseMethodFor (c :: cs) = .ok (some .resource) := by
  simp [parseMethodFor, h1, h2, h3, h4]

theorem commentFromIter_eval (t rest : List Char) (ht : '\n' ∉ t) :
    commentFromIter ('!' :: (t ++ '\n' :: rest)) = .ok t := by
  unfold commentFromIter
  rw [show ('!' :: (t ++ '\n' :: rest) : List Char) = ('!' :: t) ++ '\n' :: rest by simp,
    takeLineStr_append ('!' :: t) rest (by simp; intro h; exact ht h)]
  rfl

theorem whitespaceFromIter_eval (l rest : List Char) (hl : ∀ a ∈ l, a = ' ') :
    whitespaceFromIter (l ++ '\n' :: rest) = .ok (l ++ ['\n']) := by
  have hnl : '\n' ∉ l := fun h => by have := hl _ h; simp at this
  unfold whitespaceFromIter
  rw [takeLineStr_append l rest hnl]
  rw [if_pos (show (l.all fun c => c = ' ' || c = '\n') = true by
    rw [List.all_eq_true]; intro a ha; simp [hl a ha])]

theorem defineFromIter_eval (dn dv rest : List Char) (hne : dn ≠ [])
    (hw : dn.all isWordChar = true) (hv : '\n' ∉ dv) :
    defineFromIter (defineTok ++ dn ++ ' ' :: dv ++ '\n' :: rest) = .ok (dn, dv) := by
  have hnodn : '\n' ∉ dn := by
    intro hmem
    have := List.all_eq_true.mp hw _ hmem
    simp [isWordChar] at this
  have hnoline : '\n' ∉ defineTok ++ (dn ++ ' ' :: dv) := by
    intro h
    simp only [defineTok, List.mem_append, List.mem_cons] at h
    rcases h with h | (h | (h | h))
    · simp at h
    · exact hnodn h
    · exact absurd h (by decide)
    · exact hv h
  have hline : takeLineStr (defineTok ++ dn ++ ' ' :: dv ++ '\n' :: rest) =
      defineTok ++ (dn ++ ' ' :: dv) := by
    rw [show (defineTok ++ dn ++ ' ' :: dv ++ '\n' :: rest : List Char) =
      (defineTok ++ (dn ++ ' ' :: dv)) ++ '\n' :: rest by simp]
    exact takeLineStr_append _ rest hnoline
  have hsplit := takeWhile_dropWhile_stop isWordChar dn ' ' dv
    (fun a ha => List.all_eq_true.mp hw _ ha) (by decide)
  unfold defineFromIter
  rw [hline]
  rw [List.take_left' (show defineTok.length = 8 from rfl)]
  rw [List.drop_left' (show defineTok.length = 8 from rfl)]
  rw [hsplit.1, hsplit.2]
  rw [if_pos rfl, if_pos ⟨hne, rfl⟩]
  rfl

theorem step_resource (st : XParserState) (rid v rest : List Char)
    (h1 : isResourceLike rid = true) (h2 : ':' ∉ rid) (h3 : '\n' ∉ rid) (h4 : '\n' ∉ v) :
    parseLineSt st (rid ++ ':' :: v ++ '\n' :: rest) =
      .ok { st with resources := dictInsert st.resources (strip rid)
                      (.resource (strip rid) (strip v) st.currentLine) } := by
  rcases rid with _ | ⟨c, rid'⟩
  · exact absurd h1 (by simp [isResourceLike])
  · simp only [isResourceLike, Bool.not_eq_true', Bool.or_eq_false_iff,
      decide_eq_false_iff_not] at h1
    have hd : parseMethodFor (c :: (rid' ++ ':' :: (v ++ '\n' :: rest))) = .ok (some .resource) :=
      dispatch_resource _ h1.1.1.1 h1.1.1.2 h1.1.2 h1.2
    have hv2 : resourceFromIter ((c :: rid') ++ ':' :: (v ++ '\n' :: rest)) =
        .ok (strip (c :: rid'), strip ((v ++ '\n' :: rest).takeWhile (fun x => x ≠ '\n'))) :=
      resourceFromIter_split (c :: rid') (v ++ '\n' :: rest) h2 (by simp) h3
    have hvtake : (v ++ '\n' :: rest).takeWhile (fun x => decide (x ≠ '\n')) = v :=
      (takeWhile_dropWhile_stop _ v '\n' rest
        (fun a ha => by simp; intro hcontra; exact h4 (hcontra ▸ ha)) (by simp)).1
    rw [hvtake] at hv2
    simp only [List.cons_append] at hv2
    simp only [List.append_assoc, List.cons_append]
    unfold parseLineSt
    rw [hd, hv2]

theorem step_comment (st : XParserState) (t rest : List Char) (ht : '\n' ∉ t) :
    parseLineSt st ('!' :: t ++ '\n' :: rest) =
      .ok { st with comments := st.comments ++ [.comment t st.currentLine] } := by
  have hc := commentFromIter_eval t rest ht
  simp only [List.cons_append]
  unfold parseLineSt
  rw [show parseMethodFor ('!' :: (t ++ '\n' :: rest)) = .ok (some .comment) from rfl, hc]

theorem step_whitespace (st : XParserState) (l rest : List Char) (hl : ∀ a ∈ l, a = ' ') :
    parseLineSt st (l ++ '\n' :: rest) =
      .ok { st with emptyLines := st.emptyLines ++ [st.currentLine],
                    whitespace := st.whitespace ++ [.whitespaceS (l ++ ['\n']) st.currentLine] } := by
  have hws := whitespaceFromIter_eval l rest hl
  rcases l with _ | ⟨c, l'⟩
  · simp only [List.nil_append] at hws ⊢
    unfold parseLineSt
    rw [show parseMethodFor ('\n' :: rest) = .ok (some .whitespace) from rfl, hws]
  · have hc : c = ' ' := hl c (List.mem_cons_self c l')
    subst hc
    simp only [List.cons_append] at hws ⊢
    unfold parseLineSt
    rw [show parseMethodFor (' ' :: (l' ++ '\n' :: rest)) = .ok (some .whitespace) from rfl, hws]

theorem step_define (st : XParserState) (dn dv rest : List Char)
    (hne : dn ≠ []) (hw : dn.all isWordChar = true) (hv : '\n' ∉ dv) :
    parseLineSt st (defineTok ++ dn ++ ' ' :: dv ++ '\n' :: rest) =
      .ok { st with defines := dictInsert st.defines dn (.defineS dn dv st.currentLine) } := by
  have hdf := defineFromIter_eval dn dv rest hne hw hv
  have hshape : (defineTok ++ dn ++ ' ' :: dv ++ '\n' :: rest : List Char) =
      '#' :: ('d' :: ('e' :: 'f' :: 'i' :: 'n' :: 'e' :: ' ' :: (dn ++ ' ' :: dv ++ '\n' :: rest))) := by
    simp [defineTok]
  rw [hshape] at hdf ⊢
  unfold parseLineSt
  rw [show parseMethodFor
    ('#' :: ('d' :: ('e' :: 'f' :: 'i' :: 'n' :: 'e' :: ' ' :: (dn ++ ' ' :: dv ++ '\n' :: rest)))) =
      .ok (some .defineR) from rfl, hdf]

/-- Unfolding `parseLoopF` at an empty input with positive fuel. -/
theorem parseLoopF_nil (fuel : Nat) (st : XParserState) (h : 0 < fuel) :
    parseLoopF fuel [] st = .ok st := by
  cases fuel with
  | zero => omega
  | succ f => rfl

/-- Unfolding `parseLoopF` at a non-empty input. -/
theorem parseLoopF_cons (fuel : Nat) (input : List Char) (h : input ≠ []) (st : XParserState) :
    parseLoopF (fuel + 1) input st =
      match parseLineSt st input with
      | .error e => .error e
      | .ok st' => parseLoopF fuel (afterLine input) { st' with currentLine := st'.currentLine + 1 } := by
  cases input with
  | nil => exact absurd rfl h
  | cons c cs => rfl

/-! ### Association-list (Python dict) lemmas -/

theorem dictGet?_insert_self (d : List (List Char × XStatement)) (k : List Char) (v : XStatement) :
    dictGet? (dictInsert d k v) k = some v := by
  induction d with
  | nil => simp [dictInsert, dictGet?]
  | cons p rest ih =>
    rcases p with ⟨k', v'⟩
    by_cases hk : k' = k
    · simp [dictInsert, dictGet?, hk]
    · simp [dictInsert, dictGet?, hk, ih]

theorem dictGet?_insert_ne (d : List (List Char × XStatement)) (k k' : List Char)
    (v : XStatement) (h : k' ≠ k) :
    dictGet? (dictInsert d k v) k' = dictGet? d k' := by
  induction d with
  | nil =>
    unfold dictInsert dictGet?
    rw [if_neg (fun hc : k = k' => h hc.symm)]
    rfl
  | cons p rest ih =>
    rcases p with ⟨k'', v''⟩
    by_cases hk : k'' = k
    · subst hk
      unfold dictInsert
      rw [if_pos rfl]
      unfold dictGet?
      rw [if_neg (fun hc : k'' = k' => h (hc ▸ rfl)), if_neg (fun hc : k'' = k' => h (hc ▸ rfl))]
    · unfold dictInsert
      rw [if_neg hk]
      unfold dictGet?
      by_cases hk2 : k'' = k'
      · rw [if_pos hk2, if_pos hk2]
      · rw [if_neg hk2, if_neg hk2]
        exact ih

theorem dictInsert_of_not_mem (d : List (List Char × XStatement)) (k : List Char)
    (v : XStatement) (h : k ∉ d.map Prod.fst) :
    dictInsert d k v = d ++ [(k, v)] := by
  induction d with
  | nil => rfl
  | cons p rest ih =>
    rcases p with ⟨k', v'⟩
    simp only [List.map_cons, List.mem_cons] at h
    push_neg at h
    have hne : k' ≠ k := fun hc => h.1 hc.symm
    unfold dictInsert
    rw [if_neg hne, ih h.2]
    rfl

theorem dictGet?_of_not_mem (d : List (List Char × XStatement)) (k : List Char)
    (h : k ∉ d.map Prod.fst) : dictGet? d k = none := by
  induction d with
  | nil => rfl
  | cons p rest ih =>
    rcases p with ⟨k', v'⟩
    simp only [List.map_cons, List.mem_cons] at h
    push_neg at h
    have hne : k' ≠ k := fun hc => h.1 hc.symm
    unfold dictGet?
    rw [if_neg hne]
    exact ih h.2

/-! ### Claim C8: repeated keys overwrite (last occurrence wins) -/

/-- C8: a successfully parsed resource line *overwrites* the dict entry
for its id (and leaves every other key unchanged) rather than erroring,
and likewise for define lines; consequently, when the same id occurs on
several lines the built document maps it to the statement from the last
occurrence.  The closed conjunct checks the spec's example
`"a:1\na:2\n"`, whose document maps `a` to the line-1 statement with
value `2`. -/
theorem claim_c8_last_wins :
    (∀ st rid v rest, isResourceLike rid = true → ':' ∉ rid → '\n' ∉ rid → '\n' ∉ v →
      ∃ st', parseLineSt st (rid ++ ':' :: v ++ '\n' :: rest) = .ok st' ∧
        dictGet? st'.resources (strip rid) =
          some (.resource (strip rid) (strip v) st.currentLine) ∧
        (∀ k, k ≠ strip rid → dictGet? st'.resources k = dictGet? st.resources k)) ∧
    (∀ st dn dv rest, dn ≠ [] → dn.all isWordChar = true → '\n' ∉ dv →
      ∃ st', parseLineSt st (defineTok ++ dn ++ ' ' :: dv ++ '\n' :: rest) = .ok st' ∧
        dictGet? st'.defines dn = some (.defineS dn dv st.currentLine) ∧
        (∀ k, k ≠ dn → dictGet? st'.defines k = dictGet? st.defines k)) ∧
    (∃ st, parse ("a:1\na:2\n".toList) = .ok st ∧
      dictGet? st.resources ['a'] = some (.resource ['a'] ['2'] 1) ∧
      resourcesViewGet st ['a'] = some ['2']) := by
  refine ⟨?_, ?_, ⟨_, rfl, rfl, rfl⟩⟩
  · intro st rid v rest h1 h2 h3 h4
    refine ⟨_, step_resource st rid v rest h1 h2 h3 h4, ?_, ?_⟩
    · exact dictGet?_insert_self _ _ _
    · intro k hk
      exact dictGet?_insert_ne _ _ _ _ hk
  · intro st dn dv rest hne hw hv
    refine ⟨_, step_define st dn dv rest hne hw hv, ?_, ?_⟩
    · exact dictGet?_insert_self _ _ _
    · intro k hk
      exact dictGet?_insert_ne _ _ _ _ hk

/-- Witness for C8 applying the overwrite property at a concrete line. -/
theorem claim_c8_last_wins_witness :
    ∃ st', parseLineSt initState (['a'] ++ ':' :: ['1'] ++ '\n' :: []) = .ok st' ∧
      dictGet? st'.resources (strip ['a']) =
        some (.resource (strip ['a']) (strip ['1']) initState.currentLine) ∧
      (∀ k, k ≠ strip ['a'] → dictGet? st'.resources k = dictGet? initState.resources k) :=
  claim_c8_last_wins.1 initState ['a'] ['1'] [] (by decide) (by decide) (by decide) (by decide)

/-! ### Invariants of the parse loop -/

/-- All statements of the four line-carrying collections (everything but
the includes, whose statements carry no line). -/
def stmtsOf (st : XParserState) : List XStatement :=
  st.resources.map Prod.snd ++ (st.defines.map Prod.snd ++ (st.comments ++ st.whitespace))

theorem mem_stmtsOf_res {st : XParserState} {s : XStatement}
    (h : s ∈ st.resources.map Prod.snd) : s ∈ stmtsOf st :=
  List.mem_append.mpr (Or.inl h)

theorem mem_stmtsOf_def {st : XParserState} {s : XStatement}
    (h : s ∈ st.defines.map Prod.snd) : s ∈ stmtsOf st :=
  List.mem_append.mpr (Or.inr (List.mem_append.mpr (Or.inl h)))

theorem mem_stmtsOf_com {st : XParserState} {s : XStatement}
    (h : s ∈ st.comments) : s ∈ stmtsOf st :=
  List.mem_append.mpr (Or.inr (List.mem_append.mpr (Or.inr (List.mem_append.mpr (Or.inl h)))))

theorem mem_stmtsOf_ws {st : XParserState} {s : XStatement}
    (h : s ∈ st.whitespace) : s ∈ stmtsOf st :=
  List.mem_append.mpr (Or.inr (List.mem_append.mpr (Or.inr (List.mem_append.mpr (Or.inr h)))))

theorem mem_dictInsert_snd {d : List (List Char × XStatement)} {k : List Char}
    {v s : XStatement} (h : s ∈ (dictInsert d k v).map Prod.snd) :
    s ∈ d.map Prod.snd ∨ s = v := by
  induction d with
  | nil =>
    rw [show dictInsert [] k v = [(k, v)] from rfl, List.map_cons, List.map_nil] at h
    rcases List.mem_cons.mp h with h | h
    · exact Or.inr h
    · exact absurd h (List.not_mem_nil s)
  | cons p rest ih =>
    rcases p with ⟨k', v'⟩
    by_cases hk : k' = k
    · rw [show dictInsert ((k', v') :: rest) k v =
          if k' = k then (k, v) :: rest else (k', v') :: dictInsert rest k v from rfl,
        if_pos hk, List.map_cons] at h
      rcases List.mem_cons.mp h with h | h
      · exact Or.inr h
      · exact Or.inl (by rw [List.map_cons]; exact List.mem_cons_of_mem _ h)
    · rw [show dictInsert ((k', v') :: rest) k v =
          if k' = k then (k, v) :: rest else (k', v') :: dictInsert rest k v from rfl,
        if_neg hk, List.map_cons] at h
      rcases List.mem_cons.mp h with h | h
      · exact Or.inl (by rw [List.map_cons]; exact h ▸ List.mem_cons_self _ _)
      · rcases ih h with h2 | h2
        · exact Or.inl (by rw [List.map_cons]; exact List.mem_cons_of_mem _ h2)
        · exact Or.inr h2

/-- One loop iteration keeps the line counter and only adds statements
whose line is the current one. -/
theorem parseLineSt_effect (st : XParserState) (input : List Char) (st' : XParserState)
    (h : parseLineSt st input = .ok st') :
    st'.currentLine = st.currentLine ∧
      (∀ s, s ∈ stmtsOf st' → s ∈ stmtsOf st ∨ lineOf s = some st.currentLine) := by
  unfold parseLineSt at h
  rcases hm : parseMethodFor input with e | o <;> rw [hm] at h
  · exact absurd h (by simp)
  · rcases o with _ | r
    · exact absurd h (by simp)
    · rcases r with _ | _ | _ | _ | _
      · rcases hc : commentFromIter input with e | t <;> rw [hc] at h
        · exact absurd h (by simp)
        · simp only [Except.ok.injEq] at h
          subst h
          refine ⟨rfl, ?_⟩
          intro s hs
          simp only [stmtsOf, List.mem_append, List.mem_singleton, or_assoc] at hs
          rcases hs with h | h | h | h | h
          · exact Or.inl (mem_stmtsOf_res h)
          · exact Or.inl (mem_stmtsOf_def h)
          · exact Or.inl (mem_stmtsOf_com h)
          · subst h; exact Or.inr rfl
          · exact Or.inl (mem_stmtsOf_ws h)
      · rcases hc : whitespaceFromIter input with e | ls <;> rw [hc] at h
        · exact absurd h (by simp)
        · simp only [Except.ok.injEq] at h
          subst h
          refine ⟨rfl, ?_⟩
          intro s hs
          simp only [stmtsOf, List.mem_append, List.mem_singleton, or_assoc] at hs
          rcases hs with h | h | h | h | h
          · exact Or.inl (mem_stmtsOf_res h)
          · exact Or.inl (mem_stmtsOf_def h)
          · exact Or.inl (mem_stmtsOf_com h)
          · exact Or.inl (mem_stmtsOf_ws h)
          · subst h; exact Or.inr rfl
      · rcases hc : defineFromIter input with e | p <;> rw [hc] at h
        · exact absurd h (by simp)
        · rcases p with ⟨name, value⟩
          simp only [Except.ok.injEq] at h
          subst h
          refine ⟨rfl, ?_⟩
          intro s hs
          simp only [stmtsOf, List.mem_append, or_assoc] at hs
          rcases hs with h | h | h | h
          · exact Or.inl (mem_stmtsOf_res h)
          · rcases mem_dictInsert_snd h with h2 | h2
            · exact Or.inl (mem_stmtsOf_def h2)
            · subst h2; exact Or.inr rfl
          · exact Or.inl (mem_stmtsOf_com h)
          · exact Or.inl (mem_stmtsOf_ws h)
      · rcases hc : includeFromIter input with e | f <;> rw [hc] at h
        · exact absurd h (by simp)
        · simp only [Except.ok.injEq] at h
          subst h
          exact ⟨rfl, fun s hs => Or.inl hs⟩
      · rcases hc : resourceFromIter input with e | p <;> rw [hc] at h
        · exact absurd h (by simp)
        · rcases p with ⟨rid, value⟩
          simp only [Except.ok.injEq] at h
          subst h
          refine ⟨rfl, ?_⟩
          intro s hs
          simp only [stmtsOf, List.mem_append, or_assoc] at hs
          rcases hs with h | h | h | h
          · rcases mem_dictInsert_snd h with h2 | h2
            · exact Or.inl (mem_stmtsOf_res h2)
            · subst h2; exact Or.inr rfl
          · exact Or.inl (mem_stmtsOf_def h)
          · exact Or.inl (mem_stmtsOf_com h)
          · exact Or.inl (mem_stmtsOf_ws h)

/-- Each iteration of the loop grows the statement collections only with
statements dated at the current line, so at the end every statement's
line is strictly below the final line counter, and the counter advanced
by the number of lines consumed. -/
theorem parseLoopF_invariant :
    ∀ fuel input (st st' : XParserState), parseLoopF fuel input st = .ok st' →
      (∀ s, s ∈ stmtsOf st → ∃ m, lineOf s = some m ∧ m < st.currentLine) →
      st'.currentLine = st.currentLine + numLinesF fuel input ∧
        (∀ s, s ∈ stmtsOf st' → ∃ m, lineOf s = some m ∧ m < st'.currentLine) := by
  intro fuel
  induction fuel with
  | zero => intro input st st' h _; exact absurd h (by simp [parseLoopF])
  | succ f ih =>
    intro input st st' h hinv
    rcases input with _ | ⟨c, cs⟩
    · simp only [parseLoopF, Except.ok.injEq] at h
      subst h
      exact ⟨by simp [numLinesF], hinv⟩
    · rw [parseLoopF_cons f (c :: cs) (by simp) st] at h
      rcases hl : parseLineSt st (c :: cs) with e | st1 <;> rw [hl] at h
      · exact absurd h (by simp)
      · have heff := parseLineSt_effect st (c :: cs) st1 hl
        have hinv1 : ∀ s, s ∈ stmtsOf { st1 with currentLine := st1.currentLine + 1 } →
            ∃ m, lineOf s = some m ∧
              m < ({ st1 with currentLine := st1.currentLine + 1 } : XParserState).currentLine := by
          intro s hs
          have hs' : s ∈ stmtsOf st1 := hs
          rcases heff.2 s hs' with h2 | h2
          · rcases hinv s h2 with ⟨m, hm1, hm2⟩
            refine ⟨m, hm1, ?_⟩
            simp only [heff.1] at *
            omega
          · refine ⟨st.currentLine, h2, ?_⟩
            simp only [heff.1] at *
            omega
        have hfin := ih (afterLine (c :: cs)) _ st' h hinv1
        refine ⟨?_, hfin.2⟩
        have h1 := hfin.1
        simp only at h1
        rw [h1, heff.1]
        simp only [numLinesF]
        omega

/-- `statement_at_line` raises `IndexError` when no statement in the
view owns the line. -/
theorem statementAtLine_none (v : List XStatement) (n : Nat)
    (h : ∀ s ∈ v, ∃ m, lineOf s = some m ∧ m ≠ n) :
    statementAtLine v n = .error .indexError := by
  induction v with
  | nil => rfl
  | cons s rest ih =>
    rcases h s (List.mem_cons_self s rest) with ⟨m, hm1, hm2⟩
    unfold statementAtLine
    simp only [hm1]
    rw [if_neg hm2]
    exact ih (fun t ht => h t (List.mem_cons_of_mem s ht))

theorem firstStatementAt_none (views : List (List XStatement)) (n : Nat)
    (h : ∀ v ∈ views, statementAtLine v n = .error .indexError) :
    firstStatementAt views n = .error .indexError := by
  induction views with
  | nil => rfl
  | cons v rest ih =>
    unfold firstStatementAt
    rw [h v (List.mem_cons_self v rest)]
    exact ih (fun w hw => h w (List.mem_cons_of_mem v hw))

/-! ### Claim C10: view length and the query at the final counted line -/

/-- C10 counterexample: for the input `#include "f"\n` the parse
succeeds, the view's length is 2, but querying the final counted line 1
fails with `AttributeError` (reading `.line` on the include statement),
not with the claimed not-found `IndexError`. -/
theorem claim_c10_counterexample :
    ∃ st, parse ("#include \"f\"\n".toList) = .ok st ∧ viewLen st = 2 ∧
      xFileStatementAt st 1 = .error .attributeError ∧
      ViewErr.attributeError ≠ ViewErr.indexError :=
  ⟨_, rfl, rfl, rfl, by simp⟩

/-- C10 (amended): for every successful parse the view's reported length
is the number of parsed lines plus one (parsing the empty string yields
length 1), and — provided the document recorded no include statements —
querying `statement_at`/`text_at` at that final counted line number
fails with the not-found `IndexError`, because every statement's line is
strictly below the final line counter.  (With an include statement
present the same query fails with `AttributeError` instead.) -/
theorem claim_c10_view_length (input : List Char) (st : XParserState)
    (h : parse input = .ok st) :
    viewLen st = numLines input + 1 ∧
      (st.includes = [] →
        xFileStatementAt st (numLines input) = .error .indexError ∧
        textAtLine st (numLines input) = .error .indexError) := by
  have hinv := parseLoopF_invariant (input.length + 1) input initState st h
    (by intro s hs; simp [stmtsOf, initState] at hs)
  have hcur : st.currentLine = numLines input := by
    have h1 := hinv.1
    simpa [initState, numLines] using h1
  constructor
  · simp [viewLen, hcur]
  · intro hinc
    have hocc : ∀ v : List XStatement, (∀ s ∈ v, s ∈ stmtsOf st) →
        statementAtLine v (numLines input) = .error .indexError := by
      intro v hsub
      apply statementAtLine_none
      intro s hs
      rcases hinv.2 s (hsub s hs) with ⟨m, hm1, hm2⟩
      refine ⟨m, hm1, ?_⟩
      omega
    have hview : ∀ v ∈ viewsOf st, statementAtLine v (numLines input) = .error .indexError := by
      intro v hv
      simp only [viewsOf, List.mem_cons, List.not_mem_nil, or_false] at hv
      rcases hv with rfl | rfl | rfl | rfl | rfl
      · exact hocc _ (fun s hs => mem_stmtsOf_res hs)
      · exact hocc _ (fun s hs => mem_stmtsOf_def hs)
      · rw [hinc]; rfl
      · exact hocc _ (fun s hs => mem_stmtsOf_com hs)
      · exact hocc _ (fun s hs => mem_stmtsOf_ws hs)
    have hfs : xFileStatementAt st (numLines input) = .error .indexError :=
      firstStatementAt_none _ _ hview
    exact ⟨hfs, by unfold textAtLine; rw [hfs]; rfl⟩

/-- Witness for C10 at the empty input: the view has length 1 and line 0
is unoccupied. -/
theorem claim_c10_view_length_witness :
    viewLen initState = numLines [] + 1 ∧
      xFileStatementAt initState (numLines []) = .error .indexError :=
  ⟨(claim_c10_view_length [] initState rfl).1,
    ((claim_c10_view_length [] initState rfl).2 rfl).1⟩

/-! ### How `statement_at_line` reacts to appending one statement -/

theorem except_map_eq_error {x : Except ViewErr XStatement} {e : ViewErr}
    (h : x.map strOfStatement = .error e) : x = .error e := by
  cases x with
  | error e' =>
    simp only [Except.map] at h
    have he : e' = e := by injection h
    rw [he]
  | ok s => simp [Except.map] at h

theorem statementAtLine_snoc_ne (v : List XStatement) (s : XStatement) (n k : Nat)
    (hs : lineOf s = some k) (hne : k ≠ n) :
    statementAtLine (v ++ [s]) n = statementAtLine v n := by
  induction v with
  | nil =>
    simp only [List.nil_append, statementAtLine, hs]
    rw [if_neg hne]
  | cons t rest ih =>
    rcases ht : lineOf t with _ | m
    · simp only [List.cons_append, statementAtLine, ht]
    · simp only [List.cons_append, statementAtLine, ht]
      by_cases hm : m = n
      · rw [if_pos hm, if_pos hm]
      · rw [if_neg hm, if_neg hm]
        exact ih

theorem statementAtLine_snoc_eq (v : List XStatement) (s : XStatement) (k : Nat)
    (hs : lineOf s = some k) (hv : statementAtLine v k = .error .indexError) :
    statementAtLine (v ++ [s]) k = .ok s := by
  induction v with
  | nil =>
    simp only [List.nil_append, statementAtLine, hs]
    simp
  | cons t rest ih =>
    rcases ht : lineOf t with _ | m
    · rw [show statementAtLine (t :: rest) k = .error .attributeError from by
        simp only [statementAtLine, ht]] at hv
      exact absurd hv (by simp)
    · by_cases hm : m = k
      · rw [show statementAtLine (t :: rest) k = .ok t from by
          simp only [statementAtLine, ht]; rw [if_pos hm]] at hv
        exact absurd hv (by simp)
      · have hv2 : statementAtLine rest k = .error .indexError := by
          rw [show statementAtLine (t :: rest) k = statementAtLine rest k from by
            simp only [statementAtLine, ht]; rw [if_neg hm]] at hv
          exact hv
        simp only [List.cons_append, statementAtLine, ht]
        rw [if_neg hm]
        exact ih hv2

theorem firstStatementAt_cons_index (v : List XStatement) (vs : List (List XStatement)) (n : Nat)
    (h : statementAtLine v n = .error .indexError) :
    firstStatementAt (v :: vs) n = firstStatementAt vs n := by
  have hc : firstStatementAt (v :: vs) n =
      match statementAtLine v n with
      | .ok s => .ok s
      | .error .indexError => firstStatementAt vs n
      | .error .attributeError => .error .attributeError := rfl
  rw [hc, h]

theorem firstStatementAt_cons_ok (v : List XStatement) (vs : List (List XStatement)) (n : Nat)
    (s : XStatement) (h : statementAtLine v n = .ok s) :
    firstStatementAt (v :: vs) n = .ok s := by
  have hc : firstStatementAt (v :: vs) n =
      match statementAtLine v n with
      | .ok s => .ok s
      | .error .indexError => firstStatementAt vs n
      | .error .attributeError => .error .attributeError := rfl
  rw [hc, h]

theorem firstStatementAt_error_forall (vs : List (List XStatement)) (n : Nat)
    (h : firstStatementAt vs n = .error .indexError) :
    ∀ v ∈ vs, statementAtLine v n = .error .indexError := by
  induction vs with
  | nil => intro v hv; exact absurd hv (List.not_mem_nil v)
  | cons w rest ih =>
    intro v hv
    unfold firstStatementAt at h
    rcases hw : statementAtLine w n with e | s <;> rw [hw] at h
    · rcases e with _ | _
      · rcases List.mem_cons.mp hv with rfl | hv2
        · exact hw
        · exact ih h v hv2
      · exact absurd h (by simp)
    · exact absurd h (by simp)

theorem firstStatementAt_congr {n : Nat} :
    ∀ {vs ws : List (List XStatement)},
      List.Forall₂ (fun v w => statementAtLine v n = statementAtLine w n) vs ws →
      firstStatementAt vs n = firstStatementAt ws n := by
  intro vs ws h
  induction h with
  | nil => rfl
  | cons hvw _ ih =>
    unfold firstStatementAt
    rw [hvw, ih]

/-- The state after filing one new statement: exactly one view list got
the statement appended, the others (and the includes) are unchanged. -/
def SnocView (st st' : XParserState) (new : XStatement) : Prop :=
  st'.includes = st.includes ∧
  ((st'.resources.map Prod.snd = st.resources.map Prod.snd ++ [new] ∧
      st'.defines = st.defines ∧ st'.comments = st.comments ∧ st'.whitespace = st.whitespace) ∨
   (st'.resources = st.resources ∧ st'.defines.map Prod.snd = st.defines.map Prod.snd ++ [new] ∧
      st'.comments = st.comments ∧ st'.whitespace = st.whitespace) ∨
   (st'.resources = st.resources ∧ st'.defines = st.defines ∧
      st'.comments = st.comments ++ [new] ∧ st'.whitespace = st.whitespace) ∨
   (st'.resources = st.resources ∧ st'.defines = st.defines ∧
      st'.comments = st.comments ∧ st'.whitespace = st.whitespace ++ [new]))

theorem xFileStatementAt_snoc (st st' : XParserState) (new : XStatement) (k : Nat)
    (hk : lineOf new = some k) (hsv : SnocView st st' new) :
    (∀ n, n ≠ k → xFileStatementAt st' n = xFileStatementAt st n) ∧
      (xFileStatementAt st k = .error .indexError → xFileStatementAt st' k = .ok new) := by
  rcases hsv with ⟨hinc, hcase⟩
  constructor
  · intro n hn
    unfold xFileStatementAt viewsOf
    apply firstStatementAt_congr
    have hne : ∀ v : List XStatement,
        statementAtLine (v ++ [new]) n = statementAtLine v n :=
      fun v => statementAtLine_snoc_ne v new n k hk (fun hc => hn hc.symm)
    rcases hcase with ⟨h1, h2, h3, h4⟩ | ⟨h1, h2, h3, h4⟩ | ⟨h1, h2, h3, h4⟩ | ⟨h1, h2, h3, h4⟩
    · exact .cons (by rw [h1]; exact hne _)
        (.cons (by rw [h2]) (.cons (by rw [hinc])
          (.cons (by rw [h3]) (.cons (by rw [h4]) .nil))))
    · exact .cons (by rw [h1])
        (.cons (by rw [h2]; exact hne _) (.cons (by rw [hinc])
          (.cons (by rw [h3]) (.cons (by rw [h4]) .nil))))
    · exact .cons (by rw [h1])
        (.cons (by rw [h2]) (.cons (by rw [hinc])
          (.cons (by rw [h3]; exact hne _) (.cons (by rw [h4]) .nil))))
    · exact .cons (by rw [h1])
        (.cons (by rw [h2]) (.cons (by rw [hinc])
          (.cons (by rw [h3]) (.cons (by rw [h4]; exact hne _) .nil))))
  · intro hidx
    have hall := firstStatementAt_error_forall _ _ hidx
    have hR : statementAtLine (st.resources.map Prod.snd) k = .error .indexError :=
      hall _ (by simp [viewsOf])
    have hD : statementAtLine (st.defines.map Prod.snd) k = .error .indexError :=
      hall _ (by simp [viewsOf])
    have hI : statementAtLine st.includes k = .error .indexError :=
      hall _ (by simp [viewsOf])
    have hC : statementAtLine st.comments k = .error .indexError :=
      hall _ (by simp [viewsOf])
    have hW : statementAtLine st.whitespace k = .error .indexError :=
      hall _ (by simp [viewsOf])
    unfold xFileStatementAt viewsOf
    rcases hcase with ⟨h1, h2, h3, h4⟩ | ⟨h1, h2, h3, h4⟩ | ⟨h1, h2, h3, h4⟩ | ⟨h1, h2, h3, h4⟩
    · rw [firstStatementAt_cons_ok _ _ _ new
        (by rw [h1]; exact statementAtLine_snoc_eq _ new k hk hR)]
    · rw [firstStatementAt_cons_index _ _ _ (by rw [h1]; exact hR),
        firstStatementAt_cons_ok _ _ _ new
          (by rw [h2]; exact statementAtLine_snoc_eq _ new k hk hD)]
    · rw [firstStatementAt_cons_index _ _ _ (by rw [h1]; exact hR),
        firstStatementAt_cons_index _ _ _ (by rw [h2]; exact hD),
        firstStatementAt_cons_index _ _ _ (by rw [hinc]; exact hI),
        firstStatementAt_cons_ok _ _ _ new
          (by rw [h3]; exact statementAtLine_snoc_eq _ new k hk hC)]
    · rw [firstStatementAt_cons_index _ _ _ (by rw [h1]; exact hR),
        firstStatementAt_cons_index _ _ _ (by rw [h2]; exact hD),
        firstStatementAt_cons_index _ _ _ (by rw [hinc]; exact hI),
        firstStatementAt_cons_index _ _ _ (by rw [h3]; exact hC),
        firstStatementAt_cons_ok _ _ _ new
          (by rw [h4]; exact statementAtLine_snoc_eq _ new k hk hW)]

/-! ### Normalized lines and the round-trip invariant -/

/-- A line in already-normalized resource form: dispatched to the
resource recognizer, contains a `:`, has a non-empty left part, and both
sides of the first `:` are already stripped. -/
def goodResourceLine (l : List Char) : Bool :=
  isResourceLike l && decide (':' ∈ l) &&
    decide (l.takeWhile (fun c => c ≠ ':') ≠ []) &&
    decide (strip (l.takeWhile (fun c => c ≠ ':')) = l.takeWhile (fun c => c ≠ ':')) &&
    decide (strip ((l.dropWhile (fun c => c ≠ ':')).drop 1) = (l.dropWhile (fun c => c ≠ ':')).drop 1)

/-- A line matching the define grammar `#define (\w+) (.*)`. -/
def goodDefineLine (l : List Char) : Bool :=
  decide (l.take 8 = defineTok) &&
    decide ((l.drop 8).takeWhile isWordChar ≠ []) &&
    decide (((l.drop 8).dropWhile isWordChar).head? = some ' ')

/-- A newline-free line that parses and serializes back to itself: an
all-spaces (possibly empty) blank line, a comment line, a well-formed
define line, or a normalized resource line. -/
def goodLine (l : List Char) : Bool :=
  decide ('\n' ∉ l) &&
    (l.all (fun c => c = ' ') || decide (l.head? = some '!') ||
      goodDefineLine l || goodResourceLine l)

/-- Concatenate lines, each terminated by a newline. -/
def joinLines : List (List Char) → List Char
  | [] => []
  | l :: ls => l ++ '\n' :: joinLines ls

/-- The resource id a line stores when the dispatcher sends it to the
resource recognizer and the recognizer succeeds. -/
def resourceKeyOf (l : List Char) : Option (List Char) :=
  if isResourceLike l then some (strip (l.takeWhile (fun c => c ≠ ':'))) else none

/-- The define name a line stores when it matches the define grammar. -/
def defineNameOf (l : List Char) : Option (List Char) :=
  if l.take 8 = defineTok then some ((l.drop 8).takeWhile isWordChar) else none

def resourceKeys (ls : List (List Char)) : List (List Char) := ls.filterMap resourceKeyOf

def defineKeys (ls : List (List Char)) : List (List Char) := ls.filterMap defineNameOf

/-- The round-trip invariant after parsing the lines `ls`: the line
counter equals the number of lines, there are no includes, the dict keys
are exactly the line keys, and the statement found at line `n` prints
exactly the n-th line (with `IndexError` past the end). -/
def Inv (st : XParserState) (ls : List (List Char)) : Prop :=
  st.currentLine = ls.length ∧
  st.includes = [] ∧
  st.resources.map Prod.fst = resourceKeys ls ∧
  st.defines.map Prod.fst = defineKeys ls ∧
  ∀ n : Nat, (xFileStatementAt st n).map strOfStatement =
    (if n < ls.length then .ok (ls.getD n [] ++ ['\n']) else .error .indexError)

theorem exists_split_first (c : Char) (l : List Char) (h : c ∈ l) :
    l = l.takeWhile (fun x => x ≠ c) ++ c :: ((l.dropWhile (fun x => x ≠ c)).drop 1) ∧
      c ∉ l.takeWhile (fun x => x ≠ c) := by
  induction l with
  | nil => exact absurd h (List.not_mem_nil c)
  | cons a l ih =>
    by_cases hac : a = c
    · subst hac
      constructor
      · simp [List.takeWhile, List.dropWhile]
      · simp [List.takeWhile]
    · have hcl : c ∈ l := by
        rcases List.mem_cons.mp h with h1 | h1
        · exact absurd h1.symm hac
        · exact h1
      have := ih hcl
      constructor
      · rw [show (a :: l).takeWhile (fun x => x ≠ c) = a :: l.takeWhile (fun x => x ≠ c) from by
          simp [List.takeWhile, hac]]
        rw [show (a :: l).dropWhile (fun x => x ≠ c) = l.dropWhile (fun x => x ≠ c) from by
          simp [List.dropWhile, hac]]
        rw [List.cons_append]
        rw [← this.1]
      · rw [show (a :: l).takeWhile (fun x => x ≠ c) = a :: l.takeWhile (fun x => x ≠ c) from by
          simp [List.takeWhile, hac]]
        intro hmem
        rcases List.mem_cons.mp hmem with h1 | h1
        · exact hac h1.symm
        · exact this.2 h1

/-- Extending the invariant by one parsed line. -/
theorem Inv_step (st st' : XParserState) (ls : List (List Char)) (l : List Char)
    (new : XStatement)
    (hInv : Inv st ls)
    (hline : lineOf new = some ls.length)
    (hstr : strOfStatement new = l ++ ['\n'])
    (hcur : st'.currentLine = ls.length + 1)
    (hkr : st'.resources.map Prod.fst = resourceKeys (ls ++ [l]))
    (hkd : st'.defines.map Prod.fst = defineKeys (ls ++ [l]))
    (hsv : SnocView st st' new) :
    Inv st' (ls ++ [l]) := by
  obtain ⟨hc, hi, hr, hd, hn⟩ := hInv
  have hsnoc := xFileStatementAt_snoc st st' new ls.length hline hsv
  refine ⟨by simpa using hcur, by rw [hsv.1, hi], hkr, hkd, ?_⟩
  intro n
  rcases lt_trichotomy n ls.length with hlt | heq | hgt
  · rw [hsnoc.1 n (by omega), hn n, if_pos hlt,
      if_pos (show n < (ls ++ [l]).length by simp; omega)]
    rw [List.getD_append ls [l] [] n hlt]
  · have hold : xFileStatementAt st n = .error .indexError :=
      except_map_eq_error (by rw [hn n, if_neg (by omega)])
    have hok : xFileStatementAt st' n = .ok new := by
      rw [heq]
      exact hsnoc.2 (by rw [← heq]; exact hold)
    rw [hok]
    rw [if_pos (show n < (ls ++ [l]).length by simp; omega)]
    simp only [Except.map]
    rw [hstr]
    rw [show (ls ++ [l]).getD n [] = l from by
      rw [heq, List.getD_append_right ls [l] [] ls.length (by omega)]
      simp]
  · rw [hsnoc.1 n (by omega), hn n, if_neg (by omega),
      if_neg (show ¬n < (ls ++ [l]).length by simp; omega)]

/-! ### Per-kind facts about line keys -/

theorem take8_eq_defineTok_head {l : List Char} (h : l.take 8 = defineTok) :
    l.head? = some '#' := by
  cases l with
  | nil => simp [defineTok] at h
  | cons c rest =>
    rw [List.take_succ_cons] at h
    injection h with h1 _
    simp [h1]

theorem isResourceLike_eq_false_of_head {l : List Char} {c : Char} (h : l.head? = some c)
    (hc : c = '!' ∨ c = ' ' ∨ c = '\n' ∨ c = '#') : isResourceLike l = false := by
  cases l with
  | nil => rfl
  | cons a rest =>
    simp only [List.head?_cons, Option.some.injEq] at h
    subst h
    rcases hc with rfl | rfl | rfl | rfl <;> simp [isResourceLike]

theorem head_ne_hash_of_isResourceLike {l : List Char} (h : isResourceLike l = true) :
    l.head? ≠ some '#' := by
  intro hc
  rw [isResourceLike_eq_false_of_head hc (by tauto)] at h
  exact absurd h (by simp)

theorem resourceKeyOf_eq_none {l : List Char} (h : isResourceLike l = false) :
    resourceKeyOf l = none := by
  unfold resourceKeyOf
  rw [if_neg (by simp [h])]

theorem defineNameOf_eq_none {l : List Char} (h : l.head? ≠ some '#') :
    defineNameOf l = none := by
  unfold defineNameOf
  rw [if_neg (fun hc => h (take8_eq_defineTok_head hc))]

theorem resourceKeys_snoc_none (ls : List (List Char)) {l : List Char}
    (h : resourceKeyOf l = none) : resourceKeys (ls ++ [l]) = resourceKeys ls := by
  simp [resourceKeys, List.filterMap_append, h]

theorem resourceKeys_snoc_some (ls : List (List Char)) {l k : List Char}
    (h : resourceKeyOf l = some k) : resourceKeys (ls ++ [l]) = resourceKeys ls ++ [k] := by
  simp [resourceKeys, List.filterMap_append, h]

theorem defineKeys_snoc_none (ls : List (List Char)) {l : List Char}
    (h : defineNameOf l = none) : defineKeys (ls ++ [l]) = defineKeys ls := by
  simp [defineKeys, List.filterMap_append, h]

theorem defineKeys_snoc_some (ls : List (List Char)) {l k : List Char}
    (h : defineNameOf l = some k) : defineKeys (ls ++ [l]) = defineKeys ls ++ [k] := by
  simp [defineKeys, List.filterMap_append, h]

/-! ### Advancing the invariant over one good line -/

theorem isResourceLike_false_of_space {l : List Char} (hsp : ∀ a ∈ l, a = ' ') :
    isResourceLike l = false := by
  cases l with
  | nil => rfl
  | cons c rest =>
    exact isResourceLike_eq_false_of_head rfl
      (Or.inr (Or.inl (hsp c (List.mem_cons_self c rest))))

theorem Inv_advance_ws (st : XParserState) (ls0 : List (List Char)) (l rest : List Char)
    (hInv : Inv st ls0) (hsp : ∀ a ∈ l, a = ' ') :
    ∃ st1, parseLineSt st (l ++ '\n' :: rest) = .ok st1 ∧
      Inv { st1 with currentLine := st1.currentLine + 1 } (ls0 ++ [l]) := by
  refine ⟨_, step_whitespace st l rest hsp, ?_⟩
  refine Inv_step st _ ls0 l (XStatement.whitespaceS (l ++ ['\n']) st.currentLine) hInv
    (show some st.currentLine = some ls0.length from by rw [hInv.1]) rfl
    (show st.currentLine + 1 = ls0.length + 1 from by rw [hInv.1])
    ?_ ?_ ⟨rfl, Or.inr (Or.inr (Or.inr ⟨rfl, rfl, rfl, rfl⟩))⟩
  · show st.resources.map Prod.fst = resourceKeys (ls0 ++ [l])
    rw [hInv.2.2.1,
      resourceKeys_snoc_none ls0 (resourceKeyOf_eq_none (isResourceLike_false_of_space hsp))]
  · show st.defines.map Prod.fst = defineKeys (ls0 ++ [l])
    have hhead : l.head? ≠ some '#' := by
      cases l with
      | nil => simp
      | cons c r =>
        have : c = ' ' := hsp c (List.mem_cons_self c r)
        simp [this]
    rw [hInv.2.2.2.1, defineKeys_snoc_none ls0 (defineNameOf_eq_none hhead)]

theorem Inv_advance_comment (st : XParserState) (ls0 : List (List Char)) (t rest : List Char)
    (hInv : Inv st ls0) (ht : '\n' ∉ t) :
    ∃ st1, parseLineSt st ('!' :: t ++ '\n' :: rest) = .ok st1 ∧
      Inv { st1 with currentLine := st1.currentLine + 1 } (ls0 ++ ['!' :: t]) := by
  refine ⟨_, step_comment st t rest ht, ?_⟩
  refine Inv_step st _ ls0 ('!' :: t) (XStatement.comment t st.currentLine) hInv
    (show some st.currentLine = some ls0.length from by rw [hInv.1]) rfl
    (show st.currentLine + 1 = ls0.length + 1 from by rw [hInv.1])
    ?_ ?_ ⟨rfl, Or.inr (Or.inr (Or.inl ⟨rfl, rfl, rfl, rfl⟩))⟩
  · show st.resources.map Prod.fst = resourceKeys (ls0 ++ ['!' :: t])
    rw [hInv.2.2.1, resourceKeys_snoc_none ls0
      (resourceKeyOf_eq_none (@isResourceLike_eq_false_of_head ('!' :: t) '!' rfl (Or.inl rfl)))]
  · show st.defines.map Prod.fst = defineKeys (ls0 ++ ['!' :: t])
    rw [hInv.2.2.2.1, defineKeys_snoc_none ls0 (defineNameOf_eq_none (by simp))]

theorem Inv_advance_define (st : XParserState) (ls0 : List (List Char)) (dn dv rest : List Char)
    (hne : dn ≠ []) (hw : dn.all isWordChar = true) (hv : '\n' ∉ dv)
    (hInv : Inv st ls0) (hfresh : dn ∉ defineKeys ls0) :
    ∃ st1, parseLineSt st (defineTok ++ dn ++ ' ' :: dv ++ '\n' :: rest) = .ok st1 ∧
      Inv { st1 with currentLine := st1.currentLine + 1 }
        (ls0 ++ [defineTok ++ (dn ++ ' ' :: dv)]) := by
  have hnotmem : dn ∉ st.defines.map Prod.fst := by
    rw [hInv.2.2.2.1]; exact hfresh
  have hins := dictInsert_of_not_mem st.defines dn
    (XStatement.defineS dn dv st.currentLine) hnotmem
  have hheadl : (defineTok ++ (dn ++ ' ' :: dv)).head? = some '#' := rfl
  have hname : defineNameOf (defineTok ++ (dn ++ ' ' :: dv)) = some dn := by
    unfold defineNameOf
    rw [List.take_left' (show defineTok.length = 8 from rfl)]
    rw [if_pos rfl]
    rw [List.drop_left' (show defineTok.length = 8 from rfl)]
    rw [(takeWhile_dropWhile_stop isWordChar dn ' ' dv
      (fun a ha => List.all_eq_true.mp hw _ ha) (by decide)).1]
  refine ⟨_, step_define st dn dv rest hne hw hv, ?_⟩
  refine Inv_step st _ ls0 (defineTok ++ (dn ++ ' ' :: dv))
    (XStatement.defineS dn dv st.currentLine) hInv
    (show some st.currentLine = some ls0.length from by rw [hInv.1])
    (by simp [strOfStatement, defineTok])
    (show st.currentLine + 1 = ls0.length + 1 from by rw [hInv.1])
    ?_ ?_ ⟨rfl, Or.inr (Or.inl ⟨rfl, ?_, rfl, rfl⟩)⟩
  · show st.resources.map Prod.fst = resourceKeys (ls0 ++ [defineTok ++ (dn ++ ' ' :: dv)])
    rw [hInv.2.2.1, resourceKeys_snoc_none ls0
      (resourceKeyOf_eq_none (isResourceLike_eq_false_of_head hheadl (by tauto)))]
  · show (dictInsert st.defines dn (XStatement.defineS dn dv st.currentLine)).map Prod.fst =
      defineKeys (ls0 ++ [defineTok ++ (dn ++ ' ' :: dv)])
    rw [hins, List.map_append, hInv.2.2.2.1, defineKeys_snoc_some ls0 hname]
    rfl
  · show (dictInsert st.defines dn (XStatement.defineS dn dv st.currentLine)).map Prod.snd =
      st.defines.map Prod.snd ++ [XStatement.defineS dn dv st.currentLine]
    rw [hins, List.map_append]
    rfl

theorem Inv_advance_resource (st : XParserState) (ls0 : List (List Char))
    (pre post rest : List Char)
    (hil : isResourceLike pre = true) (h2 : ':' ∉ pre) (h3 : '\n' ∉ pre) (h4 : '\n' ∉ post)
    (hsp : strip pre = pre) (hspv : strip post = post)
    (hInv : Inv st ls0) (hfresh : pre ∉ resourceKeys ls0) :
    ∃ st1, parseLineSt st (pre ++ ':' :: post ++ '\n' :: rest) = .ok st1 ∧
      Inv { st1 with currentLine := st1.currentLine + 1 } (ls0 ++ [pre ++ ':' :: post]) := by
  have hprene : pre ≠ [] := by
    intro hc
    rw [hc] at hil
    exact absurd hil (by simp [isResourceLike])
  have hil2 : isResourceLike (pre ++ ':' :: post) = true := by
    cases pre with
    | nil => exact absurd rfl hprene
    | cons c pre' =>
      rw [show ((c :: pre') ++ ':' :: post : List Char) = c :: (pre' ++ ':' :: post) from by simp]
      exact hil
  have htw : (pre ++ ':' :: post).takeWhile (fun x => decide (x ≠ ':')) = pre :=
    (takeWhile_dropWhile_stop _ pre ':' post
      (fun a ha => by simp; intro hc; exact h2 (hc ▸ ha)) (by simp)).1
  have hkeyof : resourceKeyOf (pre ++ ':' :: post) = some pre := by
    unfold resourceKeyOf
    rw [if_pos (by simp [hil2])]
    rw [htw, hsp]
  have hnotmem : strip pre ∉ st.resources.map Prod.fst := by
    rw [hInv.2.2.1, hsp]; exact hfresh
  have hins := dictInsert_of_not_mem st.resources (strip pre)
    (XStatement.resource (strip pre) (strip post) st.currentLine) hnotmem
  have hheadne : (pre ++ ':' :: post).head? ≠ some '#' := by
    intro hcontra
    exact head_ne_hash_of_isResourceLike hil2 hcontra
  refine ⟨_, step_resource st pre post rest hil h2 h3 h4, ?_⟩
  refine Inv_step st _ ls0 (pre ++ ':' :: post)
    (XStatement.resource (strip pre) (strip post) st.currentLine) hInv
    (show some st.currentLine = some ls0.length from by rw [hInv.1])
    (by rw [show strOfStatement (XStatement.resource (strip pre) (strip post) st.currentLine) =
          strip pre ++ ':' :: strip post ++ ['\n'] from rfl, hsp, hspv])
    (show st.currentLine + 1 = ls0.length + 1 from by rw [hInv.1])
    ?_ ?_ ⟨rfl, Or.inl ⟨?_, rfl, rfl, rfl⟩⟩
  · show (dictInsert st.resources (strip pre)
        (XStatement.resource (strip pre) (strip post) st.currentLine)).map Prod.fst =
      resourceKeys (ls0 ++ [pre ++ ':' :: post])
    rw [hins, List.map_append, hInv.2.2.1, resourceKeys_snoc_some ls0 hkeyof]
    rw [hsp]
    rfl
  · show st.defines.map Prod.fst = defineKeys (ls0 ++ [pre ++ ':' :: post])
    rw [hInv.2.2.2.1, defineKeys_snoc_none ls0 (defineNameOf_eq_none hheadne)]
  · show (dictInsert st.resources (strip pre)
        (XStatement.resource (strip pre) (strip post) st.currentLine)).map Prod.snd =
      st.resources.map Prod.snd ++ [XStatement.resource (strip pre) (strip post) st.currentLine]
    rw [hins, List.map_append]
    rfl

/-! ### The parse pass on a list of good lines -/

theorem parseLoopF_good :
    ∀ (ls1 : List (List Char)) (fuel : Nat) (st : XParserState) (ls0 : List (List Char)),
      (joinLines ls1).length < fuel →
      Inv st ls0 →
      (∀ l ∈ ls1, goodLine l = true) →
      (resourceKeys (ls0 ++ ls1)).Nodup →
      (defineKeys (ls0 ++ ls1)).Nodup →
      ∃ st', parseLoopF fuel (joinLines ls1) st = .ok st' ∧ Inv st' (ls0 ++ ls1) := by
  intro ls1
  induction ls1 with
  | nil =>
    intro fuel st ls0 hfuel hInv _ _ _
    refine ⟨st, ?_, by simpa using hInv⟩
    exact parseLoopF_nil fuel st (by omega)
  | cons l ls1 ih =>
    intro fuel st ls0 hfuel hInv hgood hnr hnd
    rcases fuel with _ | f
    · exact absurd hfuel (by omega)
    have hjoin : joinLines (l :: ls1) = l ++ '\n' :: joinLines ls1 := rfl
    have hlen : (joinLines (l :: ls1)).length = l.length + 1 + (joinLines ls1).length := by
      rw [hjoin]; simp [List.length_append]; omega
    have hfuel2 : (joinLines ls1).length < f := by
      rw [hlen] at hfuel; omega
    have hne : (l ++ '\n' :: joinLines ls1 : List Char) ≠ [] := by
      cases l <;> simp
    have hgl := hgood l (List.mem_cons_self l ls1)
    have hgrest : ∀ x ∈ ls1, goodLine x = true := fun x hx => hgood x (List.mem_cons_of_mem l hx)
    rw [goodLine, Bool.and_eq_true] at hgl
    obtain ⟨hnl2, hker⟩ := hgl
    have hnl : '\n' ∉ l := by simpa using hnl2
    have happ : (ls0 ++ [l]) ++ ls1 = ls0 ++ l :: ls1 := by simp
    simp only [Bool.or_eq_true, decide_eq_true_eq, or_assoc] at hker
    have hfinish : ∀ st1 : XParserState,
        parseLineSt st (l ++ '\n' :: joinLines ls1) = .ok st1 →
        Inv { st1 with currentLine := st1.currentLine + 1 } (ls0 ++ [l]) →
        ∃ st', parseLoopF (f + 1) (joinLines (l :: ls1)) st = .ok st' ∧
          Inv st' (ls0 ++ l :: ls1) := by
      intro st1 hstep hInv2
      obtain ⟨st3, hrun, hInv3⟩ := ih f { st1 with currentLine := st1.currentLine + 1 }
        (ls0 ++ [l]) hfuel2 hInv2 hgrest (by rw [happ]; exact hnr) (by rw [happ]; exact hnd)
      refine ⟨st3, ?_, by rw [happ] at hInv3; exact hInv3⟩
      rw [hjoin, parseLoopF_cons f _ hne st, hstep]
      rw [afterLine_append l (joinLines ls1) hnl]
      exact hrun
    rcases hker with hws | hcm | hdf | hrs
    · have hsp : ∀ a ∈ l, a = ' ' := by
        intro a ha
        have := List.all_eq_true.mp hws a ha
        simpa using this
      obtain ⟨st1, hstep, hInv2⟩ := Inv_advance_ws st ls0 l (joinLines ls1) hInv hsp
      exact hfinish st1 hstep hInv2
    · rcases hl : l with _ | ⟨c, t⟩
      · rw [hl] at hcm; simp at hcm
      · rw [hl] at hcm
        simp only [List.head?_cons, Option.some.injEq] at hcm
        subst hcm
        have ht : '\n' ∉ t := by
          rw [hl] at hnl
          intro hmem
          exact hnl (List.mem_cons_of_mem _ hmem)
        subst hl
        obtain ⟨st1, hstep, hInv2⟩ := Inv_advance_comment st ls0 t (joinLines ls1) hInv ht
        exact hfinish st1 hstep hInv2
    · rw [goodDefineLine, Bool.and_eq_true, Bool.and_eq_true] at hdf
      obtain ⟨⟨htake, hdnne⟩, hhead⟩ := hdf
      rw [decide_eq_true_eq] at htake hdnne hhead
      rcases hdw : (l.drop 8).dropWhile isWordChar with _ | ⟨a, dv⟩
      · rw [hdw] at hhead; simp at hhead
      · rw [hdw] at hhead
        simp only [List.head?_cons, Option.some.injEq] at hhead
        subst hhead
        have hdecomp : l = defineTok ++ ((l.drop 8).takeWhile isWordChar ++ ' ' :: dv) := by
          conv_lhs => rw [← List.take_append_drop 8 l]
          rw [htake]
          congr 1
          conv_lhs => rw [← List.takeWhile_append_dropWhile isWordChar (l.drop 8)]
          rw [hdw]
        have hvdv : '\n' ∉ dv := by
          intro hmem
          apply hnl
          rw [hdecomp]
          refine List.mem_append.mpr (Or.inr ?_)
          refine List.mem_append.mpr (Or.inr ?_)
          exact List.mem_cons_of_mem _ hmem
        have hfresh : (l.drop 8).takeWhile isWordChar ∉ defineKeys ls0 := by
          intro hmem
          have hdefname : defineNameOf l = some ((l.drop 8).takeWhile isWordChar) := by
            unfold defineNameOf; rw [if_pos htake]
          have hkeys : defineKeys (ls0 ++ l :: ls1) =
              defineKeys ls0 ++ ((l.drop 8).takeWhile isWordChar :: defineKeys ls1) := by
            unfold defineKeys
            rw [List.filterMap_append, List.filterMap_cons, hdefname]
          rw [hkeys] at hnd
          exact (List.nodup_append.mp hnd).2.2 hmem (List.mem_cons_self _ _)
        obtain ⟨st1, hstep, hInv2⟩ := Inv_advance_define st ls0
          ((l.drop 8).takeWhile isWordChar) dv (joinLines ls1) hdnne
          (List.all_eq_true.mpr (fun a ha => List.mem_takeWhile_imp ha)) hvdv hInv hfresh
        refine hfinish st1 ?_ ?_
        · rw [show (l ++ '\n' :: joinLines ls1 : List Char) =
            defineTok ++ (l.drop 8).takeWhile isWordChar ++ ' ' :: dv ++ '\n' :: joinLines ls1 from by
              conv_lhs => rw [hdecomp]
              simp]
          exact hstep
        · rw [show (ls0 ++ [l] : List (List Char)) =
            ls0 ++ [defineTok ++ ((l.drop 8).takeWhile isWordChar ++ ' ' :: dv)] from by
              rw [← hdecomp]]
          exact hInv2
    · rw [goodResourceLine, Bool.and_eq_true, Bool.and_eq_true, Bool.and_eq_true,
        Bool.and_eq_true] at hrs
      obtain ⟨⟨⟨⟨hil, hcol⟩, hprene⟩, hstrip1⟩, hstrip2⟩ := hrs
      rw [decide_eq_true_eq] at hcol hprene hstrip1 hstrip2
      obtain ⟨hdecomp, hnotin⟩ := exists_split_first ':' l hcol
      have hilpre : isResourceLike (l.takeWhile (fun x => x ≠ ':')) = true := by
        rcases hp : l.takeWhile (fun x => x ≠ ':') with _ | ⟨c, p'⟩
        · exact absurd hp hprene
        · have hlshape : l = c :: (p' ++ ':' :: (l.dropWhile (fun x => x ≠ ':')).drop 1) := by
            conv_lhs => rw [hdecomp]
            rw [hp]
            rfl
          rw [hlshape] at hil
          exact hil
      have h3 : '\n' ∉ l.takeWhile (fun x => x ≠ ':') := by
        intro hmem
        exact hnl ((List.takeWhile_sublist _).subset hmem)
      have h4 : '\n' ∉ (l.dropWhile (fun x => x ≠ ':')).drop 1 := by
        intro hmem
        exact hnl ((List.dropWhile_sublist _).subset (List.drop_subset _ _ hmem))
      have hfresh : l.takeWhile (fun x => x ≠ ':') ∉ resourceKeys ls0 := by
        intro hmem
        have hkeyofl : resourceKeyOf l = some (l.takeWhile (fun x => x ≠ ':')) := by
          unfold resourceKeyOf
          rw [if_pos (by simp [hil]), hstrip1]
        have hkeys : resourceKeys (ls0 ++ l :: ls1) =
            resourceKeys ls0 ++ (l.takeWhile (fun x => x ≠ ':') :: resourceKeys ls1) := by
          unfold resourceKeys
          rw [List.filterMap_append, List.filterMap_cons, hkeyofl]
        rw [hkeys] at hnr
        exact (List.nodup_append.mp hnr).2.2 hmem (List.mem_cons_self _ _)
      obtain ⟨st1, hstep, hInv2⟩ := Inv_advance_resource st ls0
        (l.takeWhile (fun x => x ≠ ':')) ((l.dropWhile (fun x => x ≠ ':')).drop 1)
        (joinLines ls1) hilpre hnotin h3 h4 hstrip1 hstrip2 hInv hfresh
      refine hfinish st1 ?_ ?_
      · rw [show (l ++ '\n' :: joinLines ls1 : List Char) =
          l.takeWhile (fun x => x ≠ ':') ++
            ':' :: (l.dropWhile (fun x => x ≠ ':')).drop 1 ++ '\n' :: joinLines ls1 from by
            conv_lhs => rw [hdecomp]]
        exact hstep
      · rw [show (ls0 ++ [l] : List (List Char)) =
          ls0 ++ [l.takeWhile (fun x => x ≠ ':') ++
            ':' :: (l.dropWhile (fun x => x ≠ ':')).drop 1] from by rw [← hdecomp]]
        exact hInv2

/-! ### Rebuilding the text from the invariant -/

theorem fullTextFrom_inv (st : XParserState) (ls : List (List Char)) (hInv : Inv st ls) :
    ∀ fuel n, ls.length < n + fuel →
      fullTextFrom st fuel n = .ok (joinLines (ls.drop n)) := by
  intro fuel
  induction fuel with
  | zero =>
    intro n h
    rw [List.drop_eq_nil_of_le (by omega)]
    rfl
  | succ f ihf =>
    intro n h
    by_cases hn : n < ls.length
    · have htext : textAtLine st n = .ok (ls.getD n [] ++ ['\n']) := by
        have hx := hInv.2.2.2.2 n
        rw [if_pos hn] at hx
        exact hx
      unfold fullTextFrom
      rw [htext, ihf (n + 1) (by omega)]
      have hdrop : ls.drop n = ls.getD n [] :: ls.drop (n + 1) := by
        rw [List.drop_eq_getElem_cons hn, List.getD_eq_getElem ls [] hn]
      rw [hdrop]
      rw [show joinLines (ls.getD n [] :: ls.drop (n + 1)) =
        ls.getD n [] ++ '\n' :: joinLines (ls.drop (n + 1)) from rfl]
      simp
    · have htext : textAtLine st n = .error .indexError := by
        have hx := hInv.2.2.2.2 n
        rw [if_neg hn] at hx
        exact hx
      unfold fullTextFrom
      rw [htext, List.drop_eq_nil_of_le (by omega)]
      rfl

theorem fullText_inv (st : XParserState) (ls : List (List Char)) (hInv : Inv st ls) :
    fullText st = .ok (joinLines ls) := by
  unfold fullText
  rw [hInv.1]
  have hx := fullTextFrom_inv st ls hInv (ls.length + 1) 0 (by omega)
  simpa using hx

/-! ### Claim C1: the round trip -/

/-- C1 counterexample: `"a : b\n"` parses without error, but `full_text`
rebuilds `"a:b\n"` — the resource recognizer strips the whitespace
around `:` and serialization does not restore it, so the original input
is *not* reproduced exactly. -/
theorem claim_c1_counterexample :
    ∃ st, parse ("a : b\n".toList) = .ok st ∧
      fullText st = .ok ("a:b\n".toList) ∧
      ("a:b\n".toList : List Char) ≠ "a : b\n".toList :=
  ⟨_, rfl, rfl, by decide⟩

/-- C1 (amended): full-text reconstruction reproduces the input exactly
for every input that is a concatenation of newline-terminated lines in
which every line is a comment line, an all-spaces (possibly empty) blank
line, a well-formed define line, or a resource line already in
normalized form (no whitespace adjacent to the first `:`), no line is an
include line, all resource ids are pairwise distinct and all define
names are pairwise distinct.  Such inputs parse without error and
`full_text` returns exactly the original string.  (Without these
restrictions the round trip fails: whitespace around a resource `:` is
normalized away, a duplicate key loses its earlier line, a missing final
newline gains one, and an include statement makes `full_text` raise
`AttributeError`.) -/
theorem claim_c1_round_trip (ls : List (List Char))
    (hgood : ∀ l ∈ ls, goodLine l = true)
    (hnr : (resourceKeys ls).Nodup)
    (hnd : (defineKeys ls).Nodup) :
    ∃ st, parse (joinLines ls) = .ok st ∧ fullText st = .ok (joinLines ls) := by
  have hInit : Inv initState [] := by
    refine ⟨rfl, rfl, rfl, rfl, ?_⟩
    intro n
    rw [if_neg (by simp)]
    rfl
  obtain ⟨st, hrun, hInv⟩ := parseLoopF_good ls ((joinLines ls).length + 1) initState []
    (by omega) hInit hgood (by simpa using hnr) (by simpa using hnd)
  exact ⟨st, hrun, fullText_inv st ls (by simpa using hInv)⟩

/-- Witness for C1 on a concrete four-line document exercising every
statement kind. -/
theorem claim_c1_round_trip_witness :
    (∀ l ∈ [("!c".toList), ([] : List Char),
        ("#define white #FFFFFF".toList), ("*fg:white".toList)], goodLine l = true) ∧
      ∃ st, parse (joinLines [("!c".toList), ([] : List Char),
          ("#define white #FFFFFF".toList), ("*fg:white".toList)]) = .ok st ∧
        fullText st = .ok (joinLines [("!c".toList), ([] : List Char),
          ("#define white #FFFFFF".toList), ("*fg:white".toList)]) :=
  ⟨by decide,
    claim_c1_round_trip [("!c".toList), ([] : List Char),
      ("#define white #FFFFFF".toList), ("*fg:white".toList)]
      (by decide) (by decide) (by decide)⟩

end XRP
